import Mathlib

/-!
Verification of the `reorderfuncs` package (go-ReOrderFuncs): a shallow
embedding of the line-classification, boundary-resolution and reassembly
engine that rewrites a Go source file so that its test functions appear in
alphabetical order.

Source lines are modelled as `List String`; Go `int` indices are modelled by
`Int`; a Go slice access `lines[i]` is modelled by `getLineAt`, which returns
`none` exactly when Go would panic (index out of range).  All recursive
functions are structurally recursive (loops carry an explicit fuel equal to
the number of remaining iterations) so that they evaluate by kernel
reduction.
-/

namespace ReOrderFuncs

/-! ### Models of the Go `strings` standard-library helpers -/

/-- Whitespace as trimmed by Go's `strings.TrimSpace` (ASCII part; Go also
trims exotic Unicode spaces, which no line in this development contains). -/
def isSpaceChar (c : Char) : Bool :=
  c == ' ' || c == '\t' || c == '\n' || c == '\r' || c == '\x0b' || c == '\x0c'

/-- Model of `strings.TrimSpace`: drop whitespace from both ends. -/
def trimSpace (s : String) : String :=
  ⟨((s.data.dropWhile isSpaceChar).reverse.dropWhile isSpaceChar).reverse⟩

/-- Character-list version of `strings.HasPrefix`. -/
def leadingMatch : List Char → List Char → Bool
  | _, [] => true
  | [], _ :: _ => false
  | c :: cs, d :: ds => c == d && leadingMatch cs ds

/-- Model of `strings.HasPrefix s p`. -/
def strStarts (s p : String) : Bool := leadingMatch s.data p.data

/-- The double-quote character. -/
def quoteChar : Char := '\x22'

/-- Model of `strings.Contains s q` for a single-character `q` (the only way
the source uses it, with `q` the double-quote string). -/
def strContainsChar (s : String) (c : Char) : Bool :=
  s.data.contains c

/-- Byte-wise (here: character-wise, which agrees with Go's byte-wise order
on UTF-8 text) strict lexicographic order on character lists. -/
def charListLt : List Char → List Char → Bool
  | [], [] => false
  | [], _ :: _ => true
  | _ :: _, [] => false
  | c :: cs, d :: ds => if c == d then charListLt cs ds else decide (c < d)

/-- Model of Go's `<` on strings. -/
def strLt (a b : String) : Bool := charListLt a.data b.data

/-- Accumulator-passing splitter for `splitLines`. -/
def splitLinesAcc : List Char → List Char → List String
  | [], acc => [⟨acc.reverse⟩]
  | c :: cs, acc =>
      if c == '\n' then ⟨acc.reverse⟩ :: splitLinesAcc cs []
      else splitLinesAcc cs (c :: acc)

/-- Model of `strings.Split content "\n"` as used by `ParseGoFile`. -/
def splitLines (s : String) : List String :=
  splitLinesAcc s.data []

/-- Model of `strings.Join lines "\n"`. -/
def joinLines : List String → String
  | [] => ""
  | [l] => l
  | l :: ls => l ++ "\n" ++ joinLines ls

/-- Model of `strings.HasSuffix s "\n"` (the last byte of a valid UTF-8
string is `'\n'` iff its last character is). -/
def hasTrailingNewline (s : String) : Bool :=
  match s.data.reverse with
  | [] => false
  | c :: _ => c == '\n'

/-! ### Indexing -/

/-- A Go slice access `lines[i]`: `none` models the out-of-range panic. -/
def getLineAt (lines : List String) (i : Int) : Option String :=
  if i < 0 then none else lines.get? i.toNat

/-! ### Data model

`TestFunction` is the Go struct of the same name; `FuncPos` is the private
`funcPos` struct (0-based coordinates); a `PosMap` is the `map[string][2]int`
of 1-based declaration positions produced by `buildTestFunctionPositions`,
modelled as an association list (one entry per test function). -/

structure TestFunction where
  Name : String
  Lines : List String
deriving Repr, DecidableEq

structure FuncPos where
  name : String
  startLine : Int
  endLine : Int
deriving Repr, DecidableEq

abbrev PosMap := List (String × Int × Int)

/-- Go map indexing `testFuncPos[funcName]`: first matching entry, zero
value `[2]int{0, 0}` when the key is absent. -/
def lookupPos : PosMap → String → Int × Int
  | [], _ => (0, 0)
  | e :: es, name => if e.1 == name then e.2 else lookupPos es name

/-- The `importBlockStart` constant of the source. -/
def importBlockStart : String := "import ("

/-! ### Line classifiers (source: `isCommentOrEmpty`, `isBoilerplateCode`) -/

/-- `isCommentOrEmpty`: note that the line is compared and inspected as
given, without trimming. -/
def isCommentOrEmpty (line : String) : Bool :=
  line == "" || strStarts line "//" || strStarts line "/*"

/-- `isBoilerplateCode`: blank, comment, package clause, single-line import
or the import-block opener. -/
def isBoilerplateCode (line : String) : Bool :=
  if line == "" then true
  else if strStarts line "//" || strStarts line "/*" then true
  else if strStarts line "package " then true
  else if strStarts line "import " then true
  else if line == importBlockStart then true
  else false

/-! ### Backward import-block scans

`isEndOfImportBlock` and `isInImportBlock` have textually identical loop
bodies in the source; each is embedded separately.  The loop
`for innerIdx := idx - 1; innerIdx >= 0; innerIdx--` is structural recursion
on the (non-negative) current index. -/

/-- Loop body of `isEndOfImportBlock`, at current index `innerIdx`. -/
def isEndOfImportBlockAux (lines : List String) : Nat → Option Bool
  | 0 => do
      let l ← getLineAt lines 0
      let prevLine := trimSpace l
      if prevLine == "" || strStarts prevLine "//" then pure false
      else if strContainsChar prevLine quoteChar then pure false
      else if prevLine == importBlockStart then pure true
      else if strStarts prevLine "package " then pure false
      else pure false
  | n + 1 => do
      let l ← getLineAt lines (n + 1)
      let prevLine := trimSpace l
      if prevLine == "" || strStarts prevLine "//" then isEndOfImportBlockAux lines n
      else if strContainsChar prevLine quoteChar then isEndOfImportBlockAux lines n
      else if prevLine == importBlockStart then pure true
      else if strStarts prevLine "package " then pure false
      else pure false

/-- `isEndOfImportBlock`: whether the `)` at `idx` closes an import block. -/
def isEndOfImportBlock (lines : List String) (idx : Int) : Option Bool :=
  if idx - 1 < 0 then pure false else isEndOfImportBlockAux lines (idx - 1).toNat

/-- Loop body of `isInImportBlock`, at current index `innerIdx`. -/
def isInImportBlockAux (lines : List String) : Nat → Option Bool
  | 0 => do
      let l ← getLineAt lines 0
      let prevLine := trimSpace l
      if prevLine == "" || strStarts prevLine "//" then pure false
      else if strContainsChar prevLine quoteChar then pure false
      else if prevLine == importBlockStart then pure true
      else if strStarts prevLine "package " then pure false
      else pure false
  | n + 1 => do
      let l ← getLineAt lines (n + 1)
      let prevLine := trimSpace l
      if prevLine == "" || strStarts prevLine "//" then isInImportBlockAux lines n
      else if strContainsChar prevLine quoteChar then isInImportBlockAux lines n
      else if prevLine == importBlockStart then pure true
      else if strStarts prevLine "package " then pure false
      else pure false

/-- `isInImportBlock`: whether the quoted line at `idx` sits inside a
multi-line import block. -/
def isInImportBlock (lines : List String) (idx : Int) : Option Bool :=
  if idx - 1 < 0 then pure false else isInImportBlockAux lines (idx - 1).toNat

/-! ### The comment-ownership heuristic
(source: `handleSpecialCases`, `hasActualCodeAt`, `isCommentBeforeTestFunction`) -/

/-- `handleSpecialCases`: closing parentheses and quoted lines are checked
against the import-block scans; anything else is actual code. -/
def handleSpecialCases (lines : List String) (idx : Int) (line : String) : Option Bool := do
  if line == ")" then do
    let b ← isEndOfImportBlock lines idx
    if b then pure false else pure true
  else if strContainsChar line quoteChar then do
    let b ← isInImportBlock lines idx
    if b then pure false else pure true
  else pure true

/-- `hasActualCodeAt`: non-boilerplate code at line `idx`. -/
def hasActualCodeAt (lines : List String) (idx : Int) : Option Bool := do
  let l ← getLineAt lines idx
  let line := trimSpace l
  if isBoilerplateCode line then pure false
  else handleSpecialCases lines idx line

/-- The forward loop of `isCommentBeforeTestFunction` checking that every
line strictly between the comment and the function is blank; fuel is the
number of remaining iterations. -/
def allBlankBetweenAux (lines : List String) : Int → Nat → Option Bool
  | _, 0 => pure true
  | i, fuel + 1 => do
      let l ← getLineAt lines i
      if trimSpace l != "" then pure false
      else allBlankBetweenAux lines (i + 1) fuel

/-- The backward loop of `isCommentBeforeTestFunction`
(`for idx := lineIndex - 1; idx >= 0; idx--`), returning `false` as soon as
actual code is found. -/
def noActualCodeBeforeAux (lines : List String) : Nat → Option Bool
  | 0 => do
      let b ← hasActualCodeAt lines 0
      if b then pure false else pure true
  | n + 1 => do
      let b ← hasActualCodeAt lines (n + 1)
      if b then pure false else noActualCodeBeforeAux lines n

/-- `isCommentBeforeTestFunction lineIndex lines testFuncStartLine` (the
argument order of the Go function): decides whether the comment at
`lineIndex` belongs to the test function starting at the 1-based
`testFuncStartLine`. -/
def isCommentBeforeTestFunction (lineIndex : Int) (lines : List String)
    (testFuncStartLine : Int) : Option Bool := do
  if testFuncStartLine ≤ 0 then pure false
  else
    let testStartIdx := testFuncStartLine - 1
    if lineIndex ≥ testStartIdx then pure false
    else do
      let l ← getLineAt lines lineIndex
      let trimmed := trimSpace l
      if !isCommentOrEmpty trimmed then pure false
      else if trimmed == "" then pure false
      else if lineIndex + 1 == testStartIdx then pure true
      else do
        let allBlank ← allBlankBetweenAux lines (lineIndex + 1)
          (testStartIdx - (lineIndex + 1)).toNat
        if !allBlank then pure false
        else if lineIndex - 1 < 0 then pure true
        else do
          let noCode ← noActualCodeBeforeAux lines (lineIndex - 1).toNat
          if noCode then pure true else pure false

/-! ### Boundary resolution (source: `findCommentStart`, `findCommentEnd`) -/

/-- Loop of `findCommentStart`: walk backward from `commentStart` while the
previous line is a comment or blank.  The current value of `commentStart` is
the (non-negative) recursion argument; the access `lines[commentStart-1]`
is at the predecessor. -/
def findCommentStartAux (lines : List String) : Nat → Option Nat
  | 0 => pure 0
  | n + 1 => do
      let l ← getLineAt lines n
      let prevLine := trimSpace l
      if strStarts prevLine "//" || strStarts prevLine "/*" || prevLine == "" then
        findCommentStartAux lines n
      else pure (n + 1)

/-- `findCommentStart lines functionStartLine`: first index of the
contiguous comment/blank run preceding the function.  A non-positive
starting index is returned unchanged (the Go loop guard
`commentStart > 0` fails immediately). -/
def findCommentStart (lines : List String) (functionStartLine : Int) : Option Int :=
  if functionStartLine ≤ 0 then pure functionStartLine
  else (findCommentStartAux lines functionStartLine.toNat).map Int.ofNat

/-- Loop of `findCommentEnd`: extend forward over blank lines.  `fuel` is
`len(lines) - 1 - commentEnd`, the number of remaining iterations allowed by
the guard `commentEnd < len(lines)-1`. -/
def findCommentEndAux (lines : List String) : Int → Nat → Option Int
  | commentEnd, 0 => pure commentEnd
  | commentEnd, fuel + 1 => do
      let l ← getLineAt lines (commentEnd + 1)
      let nextLine := trimSpace l
      if nextLine == "" then findCommentEndAux lines (commentEnd + 1) fuel
      else pure commentEnd

/-- `findCommentEnd lines functionEndLine`: last index of the blank run
following the function. -/
def findCommentEnd (lines : List String) (functionEndLine : Int) : Option Int :=
  findCommentEndAux lines functionEndLine
    ((lines.length : Int) - 1 - functionEndLine).toNat

/-! ### Extraction (source: `extractTestFunctionWithComments`,
`createSortedFuncPositions`, `markProcessedLines`,
`extractAllTestFunctions`, `collectNonTestLines`,
`separateTestAndNonTestContent`) -/

/-- The slice loop `for i := commentStart; i <= endLine; i++`, collecting
`lines[i]`; fuel is the number of iterations `endLine + 1 - commentStart`. -/
def collectRangeAux (lines : List String) : Int → Nat → Option (List String)
  | _, 0 => pure []
  | i, fuel + 1 => do
      let l ← getLineAt lines i
      let rest ← collectRangeAux lines (i + 1) fuel
      pure (l :: rest)

/-- `extractTestFunctionWithComments`: the block of `funcName`, from the
start of its preceding comment run to its declaration end line, together
with the 0-based end index. -/
def extractTestFunctionWithComments (lines : List String) (funcName : String)
    (testFuncPos : PosMap) : Option (TestFunction × Int) := do
  let pos := lookupPos testFuncPos funcName
  let startLine := pos.1 - 1
  let endLine := pos.2 - 1
  let commentStart ← findCommentStart lines startLine
  let funcLines ← collectRangeAux lines commentStart (endLine + 1 - commentStart).toNat
  pure (⟨funcName, funcLines⟩, endLine)

/-- Stable insertion by 0-based start line (models the exchange sort in
`createSortedFuncPositions`, whose only specified outcome is ascending
start-line order). -/
def insertByStart (f : FuncPos) : List FuncPos → List FuncPos
  | [] => [f]
  | g :: gs => if f.startLine < g.startLine then f :: g :: gs else g :: insertByStart f gs

/-- Insertion sort by start line. -/
def sortByStart : List FuncPos → List FuncPos
  | [] => []
  | f :: fs => insertByStart f (sortByStart fs)

/-- `createSortedFuncPositions`: convert each map entry to 0-based
coordinates and sort ascending by start line. -/
def createSortedFuncPositions (testFuncPos : PosMap) : List FuncPos :=
  sortByStart (testFuncPos.map fun e => ⟨e.1, e.2.1 - 1, e.2.2 - 1⟩)

/-- The marking loop `for i := commentStart; i <= commentEnd && i < len(lines); i++`
over a `map[int]bool`, modelled as an updated characteristic function; fuel
is `commentEnd + 1 - commentStart`. -/
def markRangeAux (len : Int) : (Int → Bool) → Int → Nat → (Int → Bool)
  | p, _, 0 => p
  | p, i, fuel + 1 =>
      if i < len then markRangeAux len (fun j => j == i || p j) (i + 1) fuel else p

/-- The loop body of `markProcessedLines` for one function: skip it if its
0-based start or end line is out of bounds, otherwise mark its claimed
range (comment start through trailing-blank end). -/
def markProcessedStep (lines : List String) (processedLines : Int → Bool)
    (funcInfo : FuncPos) : Option (Int → Bool) := do
  let startLine := funcInfo.startLine
  let endLine := funcInfo.endLine
  if 0 ≤ startLine ∧ startLine < (lines.length : Int) ∧
      0 ≤ endLine ∧ endLine < (lines.length : Int) then do
    let commentStart ← findCommentStart lines startLine
    let commentEnd ← findCommentEnd lines endLine
    pure (markRangeAux (lines.length : Int) processedLines commentStart
      (commentEnd + 1 - commentStart).toNat)
  else pure processedLines

/-- `markProcessedLines`: fold the marking step over the sorted functions,
starting from the empty `map[int]bool`. -/
def markProcessedLines (lines : List String) (sortedFuncs : List FuncPos) :
    Option (Int → Bool) :=
  sortedFuncs.foldlM (markProcessedStep lines) (fun _ => false)

/-- The loop body of `extractAllTestFunctions` for one function: extract it
if its 0-based start line is in bounds; the end line is not checked here. -/
def extractStep (lines : List String) (testFuncPos : PosMap)
    (testFuncs : List TestFunction) (funcInfo : FuncPos) : Option (List TestFunction) :=
  if 0 ≤ funcInfo.startLine ∧ funcInfo.startLine < (lines.length : Int) then do
    let r ← extractTestFunctionWithComments lines funcInfo.name testFuncPos
    pure (testFuncs ++ [r.1])
  else pure testFuncs

/-- `extractAllTestFunctions`: extract each in-bounds function in start-line
order. -/
def extractAllTestFunctions (lines : List String) (sortedFuncs : List FuncPos)
    (testFuncPos : PosMap) : Option (List TestFunction) :=
  sortedFuncs.foldlM (extractStep lines testFuncPos) []

/-- The `for i, line := range lines` loop of `collectNonTestLines`. -/
def collectNonTestAux (processedLines : Int → Bool) : List String → Int → List String
  | [], _ => []
  | l :: ls, i =>
      if processedLines i then collectNonTestAux processedLines ls (i + 1)
      else l :: collectNonTestAux processedLines ls (i + 1)

/-- `collectNonTestLines`: the unclaimed lines in original order, with a
trailing blank sentinel appended whenever the result is non-empty. -/
def collectNonTestLines (lines : List String) (processedLines : Int → Bool) :
    List String :=
  let nonTestLines := collectNonTestAux processedLines lines 0
  if nonTestLines.isEmpty then nonTestLines else nonTestLines ++ [""]

/-- `separateTestAndNonTestContent`. -/
def separateTestAndNonTestContent (lines : List String) (testFuncPos : PosMap) :
    Option (List TestFunction × List String) := do
  let sortedFuncs := createSortedFuncPositions testFuncPos
  let processedLines ← markProcessedLines lines sortedFuncs
  let testFuncs ← extractAllTestFunctions lines sortedFuncs testFuncPos
  let nonTestLines := collectNonTestLines lines processedLines
  pure (testFuncs, nonTestLines)

/-- The pair computed for one function inside `markProcessedLines`'s loop
body: its claimed interval `[commentStart, commentEnd]`, or `none` when the
bounds guard rejects the function. -/
def claimedInterval (lines : List String) (funcInfo : FuncPos) : Option (Int × Int) :=
  if 0 ≤ funcInfo.startLine ∧ funcInfo.startLine < (lines.length : Int) ∧
      0 ≤ funcInfo.endLine ∧ funcInfo.endLine < (lines.length : Int) then do
    let commentStart ← findCommentStart lines funcInfo.startLine
    let commentEnd ← findCommentEnd lines funcInfo.endLine
    pure (commentStart, commentEnd)
  else none

/-! ### Reordering and assembly (source: `BuildOutputContent`) -/

/-- Stable insertion by name under Go's byte-wise `<` (models `sort.Slice`
with `less i j = Name i < Name j`, whose only specified outcome is
non-decreasing name order). -/
def insertByName (f : TestFunction) : List TestFunction → List TestFunction
  | [] => [f]
  | g :: gs => if strLt f.Name g.Name then f :: g :: gs else g :: insertByName f gs

/-- Insertion sort by function name. -/
def sortByName : List TestFunction → List TestFunction
  | [] => []
  | f :: fs => insertByName f (sortByName fs)

/-- The loop popping trailing blank lines from `outputLines`. -/
def dropTrailingBlankLines (ls : List String) : List String :=
  (ls.reverse.dropWhile fun s => trimSpace s == "").reverse

/-- The loop dropping leading blank lines from a block's visible content. -/
def stripLeadingBlankLines (ls : List String) : List String :=
  ls.dropWhile fun s => trimSpace s == ""

/-- Lines contributed by every sorted function after the first: a blank
separator before each. -/
def sortedFuncsLinesRest : List TestFunction → List String
  | [] => []
  | f :: fs => "" :: (stripLeadingBlankLines f.Lines ++ sortedFuncsLinesRest fs)

/-- Lines contributed by the sorted functions (`for i, testFunc := range`
loop of `BuildOutputContent`). -/
def sortedFuncsLines : List TestFunction → List String
  | [] => []
  | f :: fs => stripLeadingBlankLines f.Lines ++ sortedFuncsLinesRest fs

/-- The assembly stage of `BuildOutputContent`, applied to the already
sorted functions. -/
def assembleOutput (sortedFuncs : List TestFunction) (nonTestLines : List String) :
    String :=
  let outputLines := nonTestLines
  let outputLines :=
    if sortedFuncs.length > 0 ∧ nonTestLines.length > 0 then
      dropTrailingBlankLines outputLines ++ [""]
    else outputLines
  let outputLines := outputLines ++ sortedFuncsLines sortedFuncs
  let output := joinLines outputLines
  if hasTrailingNewline output then output else output ++ "\n"

/-- `BuildOutputContent`: sort the test functions by name, then assemble. -/
def BuildOutputContent (testFuncs : List TestFunction) (nonTestLines : List String) :
    String :=
  assembleOutput (sortByName testFuncs) nonTestLines

/-! ### The whole in-memory transformation and `Exec`
(source: `Exec`, `ParseGoFile`, `ExtractTestFunctions`) -/

/-- The in-memory pipeline of `Exec` after the collaborators have produced
the file content and the declaration positions: split into lines, separate,
reassemble. -/
def reorderContent (content : String) (testFuncPos : PosMap) : Option String :=
  (separateTestAndNonTestContent (splitLines content) testFuncPos).map
    fun r => BuildOutputContent r.1 r.2

/-- Go error values: collaborator errors and `fmt.Errorf("...: %w", err)`
wrapping, which adds context while keeping the wrapped error reachable. -/
inductive GoError where
  | ioError (msg : String)
  | parseError (msg : String)
  | wrapped (context : String) (cause : GoError)
deriving Repr, DecidableEq

/-- `ParseGoFile`, with the two collaborators (file read, syntax parse) as
inputs: read errors and parse errors are wrapped with context and
propagated; on success the content is split into lines. -/
def ParseGoFileModel (readResult : Except GoError String)
    (parseResult : Except GoError PosMap) :
    Except GoError (List String × PosMap) :=
  match readResult with
  | .error err => .error (.wrapped "failed to read input file" err)
  | .ok content =>
      match parseResult with
      | .error err => .error (.wrapped "failed to parse Go file" err)
      | .ok posMap => .ok (splitLines content, posMap)

/-- The observable effect of one `Exec` invocation: the content passed to
`os.WriteFile` (if the write was reached at all) and the returned error. -/
structure ExecEffect where
  writeAttempt : Option String
  result : Except GoError Unit
deriving Repr

/-- `Exec`: parse, transform, write.  A parse failure returns before any
write; a write failure is wrapped with context.  The outer `Option` models
the out-of-range panic of the extraction phase (never reached for
parser-produced positions). -/
def ExecModel (readResult : Except GoError String)
    (parseResult : Except GoError PosMap)
    (writeResult : Except GoError Unit) : Option ExecEffect :=
  match ParseGoFileModel readResult parseResult with
  | .error err => some ⟨none, .error err⟩
  | .ok (lines, posMap) =>
      (separateTestAndNonTestContent lines posMap).map fun r =>
        let output := BuildOutputContent r.1 r.2
        match writeResult with
        | .error err => ⟨some output, .error (.wrapped "failed to write output file" err)⟩
        | .ok _ => ⟨some output, .ok ()⟩

/-! ### The spec's classifier, for comparison with `isCommentOrEmpty` -/

/-- Modelled from the spec: `isBlankOrComment(line)` is "true for an
empty/whitespace-only line, or a line whose trimmed content starts with a
line-comment or block-comment opening marker". -/
def isBlankOrCommentSpec (line : String) : Bool :=
  trimSpace line == "" || strStarts (trimSpace line) "//" ||
    strStarts (trimSpace line) "/*"

/-! ### Concrete inputs used by individual claims -/

/-- `A.name <= B.name` under Go's byte-wise string comparison. -/
def nameLe (a b : TestFunction) : Prop := strLt b.Name a.Name = false

/-- Two adjacent test functions with one blank line and one comment between
them (the comment belongs visually to the second function). -/
def c3Lines : List String :=
  ["func Test_a(t *testing.T) \x7b", "\x7d", "", "// c",
   "func Test_b(t *testing.T) \x7b", "\x7d"]

/-- The spec's "comment after other code" boundary case: an orphan comment
preceded by a non-test function. -/
def c4Lines : List String :=
  ["package main", "import \x22testing\x22", "", "func helper() \x7b", "\x7d",
   "", "// doc", "", "func Test_x(t *testing.T) \x7b", "\x7d"]

/-- The spec's orphan-comment boundary case, with the comment line as a
parameter: package clause, single import, blank, comment, blank, test
function. -/
def c5Lines (doc : String) : List String :=
  ["package main", "import \x22testing\x22", "", doc, "",
   "func Test_x(t *testing.T) \x7b", "\x7d"]

/-- An import block containing a block comment, closed by `)` at index 4. -/
def c8Lines : List String :=
  ["package main", "import (", "/* c */", "\x22fmt\x22", ")"]

/-- The lines the backward import-block scans step over without deciding:
blank lines, line comments, and quoted (import-content) lines. -/
def importScanSkips (l : String) : Bool :=
  trimSpace l == "" || strStarts (trimSpace l) "//" ||
    strContainsChar (trimSpace l) quoteChar

/-- An import block interleaving a line comment and a quoted line, closed by
`)` at index 4. -/
def c8TrueLines : List String :=
  ["package main", "import (", "// c", "\x22fmt\x22", ")"]

/-- Line index `j` lies in the claimed interval of function `funcInfo`. -/
def coveredBy (lines : List String) (j : Int) (funcInfo : FuncPos) : Prop :=
  ∃ cs ce, claimedInterval lines funcInfo = some (cs, ce) ∧
    cs ≤ j ∧ j ≤ ce ∧ j < (lines.length : Int)

/-! ### Output-shaped files, for the idempotence analysis

A first-run output consists of a header, then for each test function one
blank separator line followed by the block's visible lines (leading
comments, then the declaration body), and a final blank line coming from
the guaranteed trailing newline. -/

/-- The boundary walks step over a line iff it is a comment or blank (the
exact disjunction tested by `findCommentStart`). -/
def commentish (l : String) : Bool :=
  strStarts (trimSpace l) "//" || strStarts (trimSpace l) "/*" || trimSpace l == ""

/-- One test-function block as it appears in an output file: its leading
comment run and its declaration body. -/
structure BlockShape where
  name : String
  comments : List String
  body : List String
deriving Repr, DecidableEq

/-- The visible lines of a block. -/
def blockLines (b : BlockShape) : List String := b.comments ++ b.body

/-- The lines contributed by a list of blocks: one blank separator before
each block. -/
def layoutLinesAux : List BlockShape → List String
  | [] => []
  | b :: bs => "" :: (blockLines b ++ layoutLinesAux bs)

/-- A whole output-shaped file: header, separated blocks, and the final
blank line produced by the trailing newline. -/
def layoutLines (H : List String) (bs : List BlockShape) : List String :=
  H ++ (layoutLinesAux bs ++ [""])

/-- The 1-based declaration positions of the blocks laid out after a prefix
of `offset` lines (the parser contract applied to an output-shaped file). -/
def layoutPosAux : Int → List BlockShape → PosMap
  | _, [] => []
  | offset, b :: bs =>
      (b.name, offset + (b.comments.length : Int) + 2,
        offset + (b.comments.length : Int) + (b.body.length : Int) + 1) ::
        layoutPosAux (offset + 1 + ((blockLines b).length : Int)) bs

/-- The positions map of an output-shaped file. -/
def layoutPos (H : List String) (bs : List BlockShape) : PosMap :=
  layoutPosAux (H.length : Int) bs

/-- The conversion applied to one map entry by
`createSortedFuncPositions`. -/
def convPos (e : String × Int × Int) : FuncPos :=
  ⟨e.1, e.2.1 - 1, e.2.2 - 1⟩

/-- The `TestFunction` the pipeline extracts for a block of an
output-shaped file: the separator blank line plus the visible block. -/
def extractedBlock (b : BlockShape) : TestFunction :=
  ⟨b.name, "" :: blockLines b⟩

/-- Well-formedness of one block: comment lines are comments or blanks, the
body is non-empty, the first visible line is not blank, the last body line
stops the boundary walks, and no line contains a newline. -/
def goodBlock (b : BlockShape) : Prop :=
  (∀ c ∈ b.comments, commentish c = true) ∧
  b.body ≠ [] ∧
  (∃ hd, (blockLines b).head? = some hd ∧ trimSpace hd ≠ "") ∧
  (∃ lst, b.body.getLast? = some lst ∧ commentish lst = false) ∧
  (∀ l ∈ blockLines b, '\n' ∉ l.data)

/-- Well-formedness of the header: non-empty, ending in a line the walks do
not step over, with no embedded newlines. -/
def goodHeader (H : List String) : Prop :=
  H ≠ [] ∧ (∃ lst, H.getLast? = some lst ∧ commentish lst = false) ∧
  (∀ l ∈ H, '\n' ∉ l.data)

end ReOrderFuncs

namespace ReOrderFuncs

/-! ## Supporting lemmas -/

/-- Go's `<` on strings is asymmetric. -/
theorem charListLt_asymm : ∀ a b : List Char, charListLt a b = true → charListLt b a = false
  | [], [], h => by simp [charListLt] at h
  | [], _ :: _, _ => by simp [charListLt]
  | _ :: _, [], h => by simp [charListLt] at h
  | c :: cs, d :: ds, h => by
      by_cases hcd : c = d
      · subst hcd
        simp only [charListLt, beq_self_eq_true, if_pos] at h ⊢
        exact charListLt_asymm cs ds h
      · have hbeq : (c == d) = false := beq_eq_false_iff_ne.mpr hcd
        have hbeq' : (d == c) = false := beq_eq_false_iff_ne.mpr (Ne.symm hcd)
        simp only [charListLt, hbeq, hbeq', Bool.false_eq_true, if_neg] at h ⊢
        exact decide_eq_false_iff_not.mpr (lt_asymm (of_decide_eq_true h))

/-- Inserting into a name-sorted list keeps it name-sorted. -/
theorem chain_insertByName (f : TestFunction) (l : List TestFunction)
    (h : List.Chain' nameLe l) : List.Chain' nameLe (insertByName f l) := by
  induction l with
  | nil => simp only [insertByName]; exact List.chain'_singleton f
  | cons g gs ih =>
      by_cases hf : strLt f.Name g.Name = true
      · rw [insertByName, if_pos hf]
        exact List.chain'_cons.mpr ⟨charListLt_asymm _ _ hf, h⟩
      · have hf' : strLt f.Name g.Name = false := Bool.eq_false_iff.mpr hf
        rw [insertByName, if_neg hf]
        have htail : List.Chain' nameLe (insertByName f gs) := ih h.tail
        cases gs with
        | nil =>
            rw [insertByName]
            exact List.chain'_cons.mpr ⟨hf', List.chain'_singleton f⟩
        | cons g' gs' =>
            by_cases hf2 : strLt f.Name g'.Name = true
            · rw [insertByName, if_pos hf2] at htail ⊢
              exact List.chain'_cons.mpr ⟨hf', htail⟩
            · rw [insertByName, if_neg hf2] at htail ⊢
              exact List.chain'_cons.mpr ⟨(List.chain'_cons.mp h).1, htail⟩

/-- The sort stage of `BuildOutputContent` produces a name-sorted list. -/
theorem chain_sortByName (l : List TestFunction) : List.Chain' nameLe (sortByName l) := by
  induction l with
  | nil => simp [sortByName]
  | cons f fs ih => exact chain_insertByName f _ ih

/-- `splitLinesAcc` never returns an empty list. -/
theorem splitLinesAcc_ne_nil : ∀ (cs acc : List Char), splitLinesAcc cs acc ≠ []
  | [], _ => by simp [splitLinesAcc]
  | c :: cs, acc => by
      by_cases hc : (c == '\n') = true
      · simp [splitLinesAcc, hc]
      · simp only [splitLinesAcc, hc, Bool.false_eq_true, if_neg]
        exact splitLinesAcc_ne_nil cs (c :: acc)

/-- Splitting a string into lines never yields the empty list. -/
theorem splitLines_ne_nil (s : String) : splitLines s ≠ [] :=
  splitLinesAcc_ne_nil s.data []

/-- With nothing marked, `collectNonTestAux` keeps every line. -/
theorem collectNonTestAux_false (ls : List String) :
    ∀ i, collectNonTestAux (fun _ => false) ls i = ls := by
  induction ls with
  | nil => intro i; rfl
  | cons l t ih => intro i; simp [collectNonTestAux, ih]

/-- `joinLines` on a cons with a non-empty tail. -/
theorem joinLines_cons (a : String) (l : List String) (h : l ≠ []) :
    joinLines (a :: l) = a ++ "\n" ++ joinLines l := by
  cases l with
  | nil => exact absurd rfl h
  | cons b t => rfl

/-- Appending the blank sentinel to a non-empty line list appends one
newline to the joined text. -/
theorem joinLines_append_blank : ∀ (l : List String), l ≠ [] →
    joinLines (l ++ [""]) = joinLines l ++ "\n"
  | [], h => absurd rfl h
  | [x], _ => by
      apply String.ext
      simp [joinLines, String.data_append]
  | x :: y :: t, _ => by
      have ih := joinLines_append_blank (y :: t) (by simp)
      have h₁ : joinLines ((x :: y :: t) ++ [""]) =
          x ++ "\n" ++ joinLines ((y :: t) ++ [""]) := rfl
      have h₂ : joinLines (x :: y :: t) = x ++ "\n" ++ joinLines (y :: t) := rfl
      rw [h₁, h₂, ih]
      apply String.ext
      simp [String.data_append]

/-- `joinLines` is a left inverse of `splitLinesAcc`. -/
theorem joinLines_splitLinesAcc : ∀ (cs acc : List Char),
    joinLines (splitLinesAcc cs acc) = ⟨acc.reverse ++ cs⟩
  | [], acc => by
      apply String.ext
      simp [splitLinesAcc, joinLines]
  | c :: cs, acc => by
      by_cases hc : (c == '\n') = true
      · have hc' : c = '\n' := eq_of_beq hc
        subst hc'
        rw [splitLinesAcc]
        simp only [beq_self_eq_true, if_pos]
        rw [joinLines_cons _ _ (splitLinesAcc_ne_nil cs []),
          joinLines_splitLinesAcc cs []]
        apply String.ext
        simp [String.data_append]
      · rw [splitLinesAcc, if_neg hc]
        rw [joinLines_splitLinesAcc cs (c :: acc)]
        apply String.ext
        simp

/-- Joining the split lines of a string recovers the string. -/
theorem joinLines_splitLines (s : String) : joinLines (splitLines s) = s := by
  obtain ⟨d⟩ := s
  rw [splitLines, joinLines_splitLinesAcc]
  rfl

/-- A string with a newline appended ends in a newline. -/
theorem hasTrailingNewline_append (s : String) :
    hasTrailingNewline (s ++ "\n") = true := by
  have hd : (s ++ "\n").data = s.data ++ ['\n'] := String.data_append s "\n"
  rw [hasTrailingNewline, hd]
  simp

/-- `BuildOutputContent` with no test functions joins the remainder as is. -/
theorem buildOutputContent_nil (ntl : List String) :
    BuildOutputContent [] ntl =
      (if hasTrailingNewline (joinLines ntl) then joinLines ntl
       else joinLines ntl ++ "\n") := by
  simp [BuildOutputContent, sortByName, assembleOutput, sortedFuncsLines]

/-- Trimming cannot remove a two-character non-whitespace leading marker. -/
theorem trimSpace_keeps_two (s p : String) (c₁ c₂ : Char) (hp : p.data = [c₁, c₂])
    (h₁ : isSpaceChar c₁ = false) (h₂ : isSpaceChar c₂ = false)
    (h : strStarts s p = true) :
    strStarts (trimSpace s) p = true := by
  obtain ⟨d⟩ := s
  simp only [strStarts, hp] at h ⊢
  match d, h with
  | [], h => simp [leadingMatch] at h
  | [x], h => simp [leadingMatch] at h
  | x :: y :: t, h =>
    simp only [leadingMatch, Bool.and_eq_true, beq_iff_eq] at h
    obtain ⟨hx, hy, -⟩ := h
    subst hx; subst hy
    show leadingMatch (trimSpace ⟨x :: y :: t⟩).data [x, y] = true
    have hdrop : List.dropWhile isSpaceChar (x :: y :: t) = x :: y :: t := by
      rw [List.dropWhile_cons, if_neg (by simp [h₁])]
    have hdata : (trimSpace ⟨x :: y :: t⟩).data =
        ((x :: y :: t).reverse.dropWhile isSpaceChar).reverse := by
      simp only [trimSpace, hdrop]
    rw [hdata]
    have hsplit : ((x :: y :: t).reverse.dropWhile isSpaceChar).reverse ++
        ((x :: y :: t).reverse.takeWhile isSpaceChar).reverse = x :: y :: t := by
      rw [← List.reverse_append, List.takeWhile_append_dropWhile, List.reverse_reverse]
    have hSmem : ∀ z ∈ ((x :: y :: t).reverse.takeWhile isSpaceChar).reverse,
        isSpaceChar z = true := fun z hz =>
      List.mem_takeWhile_imp (List.mem_reverse.mp hz)
    cases hT : ((x :: y :: t).reverse.dropWhile isSpaceChar).reverse with
    | nil =>
        rw [hT] at hsplit
        exact absurd (hSmem x (by rw [List.nil_append] at hsplit; rw [hsplit]; simp))
          (by simp [h₁])
    | cons a T' =>
        cases T' with
        | nil =>
            rw [hT] at hsplit
            simp only [List.cons_append, List.nil_append, List.cons.injEq] at hsplit
            exact absurd (hSmem y (by rw [hsplit.2]; simp)) (by simp [h₂])
        | cons b T'' =>
            rw [hT] at hsplit
            simp only [List.cons_append, List.cons.injEq] at hsplit
            obtain ⟨ha, hb, -⟩ := hsplit
            subst ha; subst hb
            simp [leadingMatch]

end ReOrderFuncs

namespace ReOrderFuncs

/-! ## Claims -/

/-- Claim C1: in any output of the transformation, adjacent emitted test
function blocks are in non-decreasing byte-wise name order:
`BuildOutputContent` assembles exactly the `sortByName`-sorted blocks, and
that list is name-sorted. -/
theorem claim_C1 (testFuncs : List TestFunction) (nonTestLines : List String) :
    List.Chain' nameLe (sortByName testFuncs) ∧
    BuildOutputContent testFuncs nonTestLines =
      assembleOutput (sortByName testFuncs) nonTestLines :=
  ⟨chain_sortByName testFuncs, rfl⟩

/-- Claim C2 (amended): with zero test functions the transformation returns
the content with exactly one newline character appended — the prescribed
normalization when the content does not already end in a newline, but one
extra blank line when it does. -/
theorem claim_C2 (content : String) :
    reorderContent content [] = some (content ++ "\n") := by
  have hne : splitLines content ≠ [] := splitLines_ne_nil content
  have h1 : separateTestAndNonTestContent (splitLines content) [] =
      some ([], splitLines content ++ [""]) := by
    cases h : splitLines content with
    | nil => exact absurd h hne
    | cons a t =>
        simp [separateTestAndNonTestContent, createSortedFuncPositions, sortByStart,
          markProcessedLines, markProcessedStep, extractAllTestFunctions,
          extractStep, collectNonTestLines, collectNonTestAux_false, h]
  rw [reorderContent, h1]
  simp only [Option.map_some']
  rw [buildOutputContent_nil, joinLines_append_blank _ hne, joinLines_splitLines,
    hasTrailingNewline_append, if_pos rfl]

/-- Claim C2, counterexample: a newline-terminated zero-test-function file
comes back with an extra blank line, not merely trailing-newline
normalized. -/
theorem claim_C2_cex :
    reorderContent "package main\n" [] = some "package main\n\n" ∧
    "package main\n\n" ≠ "package main\n" := by
  constructor
  · decide
  · decide

/-- Claim C3, counterexample: with a function, a blank line, a comment and a
second function, line index 2 lies in both functions' claimed intervals, so
an index can be claimed by two blocks. -/
theorem claim_C3_cex :
    createSortedFuncPositions [("Test_a", 1, 2), ("Test_b", 5, 6)] =
      [⟨"Test_a", 0, 1⟩, ⟨"Test_b", 4, 5⟩] ∧
    claimedInterval c3Lines ⟨"Test_a", 0, 1⟩ = some (0, 2) ∧
    claimedInterval c3Lines ⟨"Test_b", 4, 5⟩ = some (2, 5) ∧
    ((0 : Int) ≤ 2 ∧ (2 : Int) ≤ 2) ∧ ((2 : Int) ≤ 2 ∧ (2 : Int) ≤ 5) := by
  refine ⟨by decide, by decide, by decide, by decide, by decide⟩

/-- Claim C4: on the spec's "comment after other code" input the pipeline
attaches the orphan comment to the following test function's block and
removes it from the remainder — while the repository's own (uncalled)
heuristic `isCommentBeforeTestFunction` answers that the comment is not
part of that function. -/
theorem claim_C4 :
    separateTestAndNonTestContent c4Lines [("Test_x", 9, 10)] =
      some ([⟨"Test_x", ["", "// doc", "", "func Test_x(t *testing.T) \x7b", "\x7d"]⟩],
        ["package main", "import \x22testing\x22", "", "func helper() \x7b", "\x7d", ""]) ∧
    isCommentBeforeTestFunction 6 c4Lines 9 = some false := by
  constructor
  · decide
  · decide

/-- Claim C5: a comment line (any line whose trimmed content starts with a
line-comment marker) separated from the following test function by one
blank line, with only a package clause and a single import above, is
attributed to that function: it lands in the function's visible block and
the remainder keeps only the header. -/
theorem claim_C5 (doc : String) (h : strStarts (trimSpace doc) "//" = true) :
    separateTestAndNonTestContent (c5Lines doc) [("Test_x", 6, 7)] =
      some ([⟨"Test_x", ["", doc, "", "func Test_x(t *testing.T) \x7b", "\x7d"]⟩],
        ["package main", "import \x22testing\x22", ""]) := by
  simp [trimSpace, strStarts, leadingMatch, isSpaceChar] at h
  simp [separateTestAndNonTestContent, createSortedFuncPositions, sortByStart,
    insertByStart, markProcessedLines, markProcessedStep, extractAllTestFunctions,
    extractStep, extractTestFunctionWithComments, lookupPos, findCommentStart,
    findCommentStartAux, findCommentEnd, findCommentEndAux, collectRangeAux,
    markRangeAux, collectNonTestLines, collectNonTestAux, getLineAt, c5Lines, h,
    trimSpace, isSpaceChar, strStarts, leadingMatch]

/-- Claim C5, witness at the spec's own example comment. -/
theorem claim_C5_witness :
    separateTestAndNonTestContent (c5Lines "// doc") [("Test_x", 6, 7)] =
      some ([⟨"Test_x", ["", "// doc", "", "func Test_x(t *testing.T) \x7b", "\x7d"]⟩],
        ["package main", "import \x22testing\x22", ""]) :=
  claim_C5 "// doc" (by decide)

/-- Claim C7 (amended): the classifier implies the spec's predicate, and
agrees with it on pre-trimmed lines (the only way its caller invokes it);
the difference is that raw whitespace-only lines, or markers preceded by
whitespace, yield `false`. -/
theorem claim_C7 :
    (∀ line, isCommentOrEmpty line = true → isBlankOrCommentSpec line = true) ∧
    (∀ line, isBlankOrCommentSpec line = true → isCommentOrEmpty (trimSpace line) = true) := by
  constructor
  · intro line h
    simp only [isCommentOrEmpty, Bool.or_eq_true, beq_iff_eq] at h
    rcases h with (h | h) | h
    · subst h; decide
    · simp only [isBlankOrCommentSpec, Bool.or_eq_true]
      exact Or.inl (Or.inr
        (trimSpace_keeps_two line "//" '/' '/' rfl (by decide) (by decide) h))
    · simp only [isBlankOrCommentSpec, Bool.or_eq_true]
      exact Or.inr
        (trimSpace_keeps_two line "/*" '/' '*' rfl (by decide) (by decide) h)
  · intro line h
    exact h

/-- Claim C7, counterexample: a whitespace-only line is classified `false`,
although the spec's sentence requires `true`. -/
theorem claim_C7_cex :
    trimSpace "   \t  " = "" ∧ isCommentOrEmpty "   \t  " = false := by
  constructor
  · decide
  · decide

/-- Claim C7, witness. -/
theorem claim_C7_witness :
    isBlankOrCommentSpec "// x" = true ∧
    isCommentOrEmpty (trimSpace " \t/* y") = true :=
  ⟨claim_C7.1 "// x" (by decide), claim_C7.2 " \t/* y" (by decide)⟩

/-- Claim C9: when reading or parsing fails, `Exec` returns the
collaborator's error wrapped with context (the cause is kept, not
translated) and nothing is ever passed to the file write. -/
theorem claim_C9 :
    (∀ (e : GoError) (parseResult : Except GoError PosMap)
        (writeResult : Except GoError Unit),
      ExecModel (.error e) parseResult writeResult =
        some ⟨none, .error (.wrapped "failed to read input file" e)⟩) ∧
    (∀ (content : String) (e : GoError) (writeResult : Except GoError Unit),
      ExecModel (.ok content) (.error e) writeResult =
        some ⟨none, .error (.wrapped "failed to parse Go file" e)⟩) := by
  constructor
  · intro e parseResult writeResult; rfl
  · intro content e writeResult; rfl

/-- Binding a `some` in `Option` do-notation applies the continuation. -/
theorem bind_some_eq {α β : Type} (a : α) (f : α → Option β) :
    (do let x ← some a; f x) = f a := rfl

/-- In-bounds indices read successfully. -/
theorem getLineAt_some (lines : List String) (i : Int) (h0 : 0 ≤ i)
    (hlen : i < (lines.length : Int)) : ∃ l, getLineAt lines i = some l := by
  rw [getLineAt, if_neg (not_lt.mpr h0)]
  have hi : i.toNat < lines.length := by omega
  exact ⟨lines.get ⟨i.toNat, hi⟩, List.get?_eq_get hi⟩

/-- The backward comment walk succeeds whenever it starts no further than
one past the last line, and never moves forward. -/
theorem findCommentStartAux_some (lines : List String) :
    ∀ n, n ≤ lines.length → ∃ m, findCommentStartAux lines n = some m ∧ m ≤ n := by
  intro n
  induction n with
  | zero => intro _; exact ⟨0, rfl, le_rfl⟩
  | succ n ih =>
      intro h
      obtain ⟨l, hl⟩ := getLineAt_some lines n (by omega) (by exact_mod_cast h)
      rw [findCommentStartAux, hl, bind_some_eq]
      by_cases hc : (strStarts (trimSpace l) "//" || strStarts (trimSpace l) "/*" ||
          trimSpace l == "") = true
      · rw [if_pos hc]
        obtain ⟨m, hm, hle⟩ := ih (by omega)
        exact ⟨m, hm, by omega⟩
      · rw [if_neg hc]
        exact ⟨n + 1, rfl, le_rfl⟩

/-- `findCommentStart` succeeds for any start index at most the length, and
its result stays within `[0, start]` for non-negative starts. -/
theorem findCommentStart_some (lines : List String) (s : Int) (h0 : 0 ≤ s)
    (hlen : s ≤ (lines.length : Int)) :
    ∃ r, findCommentStart lines s = some r ∧ 0 ≤ r ∧ r ≤ s := by
  rw [findCommentStart]
  by_cases hs : s ≤ 0
  · rw [if_pos hs]
    exact ⟨s, rfl, h0, le_rfl⟩
  · rw [if_neg hs]
    obtain ⟨m, hm, hle⟩ := findCommentStartAux_some lines s.toNat (by omega)
    refine ⟨m, by rw [hm]; rfl, by omega, by omega⟩

/-- The forward blank walk succeeds while its fuel keeps the accesses below
the length, and moves forward by at most the fuel. -/
theorem findCommentEndAux_some (lines : List String) :
    ∀ (fuel : Nat) (e : Int), 0 ≤ e + 1 → e + fuel ≤ (lines.length : Int) - 1 →
      ∃ r, findCommentEndAux lines e fuel = some r ∧ e ≤ r ∧ r ≤ e + fuel := by
  intro fuel
  induction fuel with
  | zero => intro e _ _; exact ⟨e, rfl, le_rfl, by omega⟩
  | succ fuel ih =>
      intro e h0 hlen
      have hcast : ((fuel + 1 : Nat) : Int) = (fuel : Int) + 1 := by push_cast; ring
      obtain ⟨l, hl⟩ := getLineAt_some lines (e + 1) h0 (by rw [hcast] at hlen; omega)
      rw [findCommentEndAux, hl, bind_some_eq]
      by_cases hc : (trimSpace l == "") = true
      · rw [if_pos hc]
        obtain ⟨r, hr, h1, h2⟩ := ih (e + 1) (by omega) (by rw [hcast] at hlen; omega)
        exact ⟨r, hr, by omega, by rw [hcast]; omega⟩
      · rw [if_neg hc]
        exact ⟨e, rfl, le_rfl, by omega⟩

/-- `findCommentEnd` succeeds on any in-bounds end line and stays in
bounds. -/
theorem findCommentEnd_some (lines : List String) (e : Int) (h0 : 0 ≤ e)
    (hlen : e < (lines.length : Int)) :
    ∃ r, findCommentEnd lines e = some r ∧ e ≤ r ∧ r < (lines.length : Int) := by
  rw [findCommentEnd]
  obtain ⟨r, hr, h1, h2⟩ := findCommentEndAux_some lines
    ((lines.length : Int) - 1 - e).toNat e (by omega) (by omega)
  exact ⟨r, hr, h1, by omega⟩

/-- The slice loop succeeds while the fuel keeps every access in bounds. -/
theorem collectRangeAux_some (lines : List String) :
    ∀ (fuel : Nat) (i : Int), 0 ≤ i → i + fuel ≤ (lines.length : Int) →
      ∃ ls, collectRangeAux lines i fuel = some ls := by
  intro fuel
  induction fuel with
  | zero => intro i _ _; exact ⟨[], rfl⟩
  | succ fuel ih =>
      intro i h0 hlen
      have hcast : ((fuel + 1 : Nat) : Int) = (fuel : Int) + 1 := by push_cast; ring
      rw [hcast] at hlen
      obtain ⟨l, hl⟩ := getLineAt_some lines i h0 (by omega)
      obtain ⟨ls, hls⟩ := ih (i + 1) (by omega) (by omega)
      refine ⟨l :: ls, ?_⟩
      rw [collectRangeAux, hl, bind_some_eq, hls, bind_some_eq]
      rfl

/-- Positions with a 1-based start in `[1, length]` and an end at most the
length make the block extraction succeed. -/
theorem extractTestFunctionWithComments_some (lines : List String) (name : String)
    (pos : PosMap) (h1 : 1 ≤ (lookupPos pos name).1)
    (h2 : (lookupPos pos name).1 ≤ (lines.length : Int))
    (h3 : (lookupPos pos name).2 ≤ (lines.length : Int)) :
    ∃ r, extractTestFunctionWithComments lines name pos = some r := by
  obtain ⟨cs, hcs, hcs0, hcsle⟩ :=
    findCommentStart_some lines ((lookupPos pos name).1 - 1) (by omega) (by omega)
  obtain ⟨ls, hls⟩ := collectRangeAux_some lines
    ((lookupPos pos name).2 - 1 + 1 - cs).toNat cs hcs0 (by omega)
  refine ⟨(⟨name, ls⟩, (lookupPos pos name).2 - 1), ?_⟩
  rw [extractTestFunctionWithComments, hcs, bind_some_eq, hls, bind_some_eq]
  rfl

/-- An option-valued fold succeeds when every step does. -/
theorem foldlM_option_some {α β : Type} (l : List α) (step : β → α → Option β)
    (h : ∀ b a, a ∈ l → ∃ b', step b a = some b') :
    ∀ init, ∃ r, l.foldlM step init = some r := by
  induction l with
  | nil => intro init; exact ⟨init, rfl⟩
  | cons a t ih =>
      intro init
      obtain ⟨b', hb⟩ := h init a (by simp)
      obtain ⟨r, hr⟩ := ih (fun b a ha => h b a (by simp [ha])) b'
      refine ⟨r, ?_⟩
      rw [List.foldlM_cons, hb, bind_some_eq]
      exact hr

/-- `markProcessedLines` never fails: out-of-bounds functions are skipped
and in-bounds ones produce valid walks. -/
theorem markProcessedLines_some (lines : List String) (sortedFuncs : List FuncPos) :
    ∃ p, markProcessedLines lines sortedFuncs = some p := by
  apply foldlM_option_some
  intro b f _
  by_cases hg : 0 ≤ f.startLine ∧ f.startLine < (lines.length : Int) ∧
      0 ≤ f.endLine ∧ f.endLine < (lines.length : Int)
  · obtain ⟨cs, hcs, -, -⟩ :=
      findCommentStart_some lines f.startLine hg.1 (le_of_lt hg.2.1)
    obtain ⟨ce, hce, -, -⟩ := findCommentEnd_some lines f.endLine hg.2.2.1 hg.2.2.2
    refine ⟨markRangeAux (lines.length : Int) b cs (ce + 1 - cs).toNat, ?_⟩
    rw [markProcessedStep, if_pos hg, hcs, bind_some_eq, hce, bind_some_eq]
    rfl
  · exact ⟨b, by rw [markProcessedStep, if_neg hg]; rfl⟩

/-- Membership in an `insertByStart` result. -/
theorem mem_insertByStart {x f : FuncPos} : ∀ {l : List FuncPos},
    x ∈ insertByStart f l → x = f ∨ x ∈ l := by
  intro l
  induction l with
  | nil => intro h; simp [insertByStart] at h; exact Or.inl h
  | cons g gs ih =>
      intro h
      rw [insertByStart] at h
      by_cases hc : f.startLine < g.startLine
      · rw [if_pos hc] at h
        simpa using h
      · rw [if_neg hc] at h
        rcases List.mem_cons.mp h with rfl | h'
        · exact Or.inr (List.mem_cons_self _ _)
        · rcases ih h' with rfl | h''
          · exact Or.inl rfl
          · exact Or.inr (List.mem_cons_of_mem _ h'')

/-- Membership in a `sortByStart` result. -/
theorem mem_sortByStart {x : FuncPos} : ∀ {l : List FuncPos},
    x ∈ sortByStart l → x ∈ l := by
  intro l
  induction l with
  | nil => intro h; simp [sortByStart] at h
  | cons f fs ih =>
      intro h
      rw [sortByStart] at h
      rcases mem_insertByStart h with rfl | h'
      · exact List.mem_cons_self _ _
      · exact List.mem_cons_of_mem _ (ih h')

/-- Every sorted position record comes from a map entry. -/
theorem mem_createSortedFuncPositions {f : FuncPos} {pos : PosMap}
    (h : f ∈ createSortedFuncPositions pos) :
    ∃ e ∈ pos, f = ⟨e.1, e.2.1 - 1, e.2.2 - 1⟩ := by
  have h' := mem_sortByStart h
  obtain ⟨e, he, hf⟩ := List.mem_map.mp h'
  exact ⟨e, he, hf.symm⟩

/-- Go map lookup by a key present in the list finds the first entry with
that key. -/
theorem lookupPos_of_mem : ∀ (pos : PosMap) (e : String × Int × Int), e ∈ pos →
    ∃ e', e' ∈ pos ∧ e'.1 = e.1 ∧ lookupPos pos e.1 = e'.2 := by
  intro pos
  induction pos with
  | nil => intro e he; cases he
  | cons x xs ih =>
      intro e he
      by_cases hx : (x.1 == e.1) = true
      · exact ⟨x, List.mem_cons_self _ _, eq_of_beq hx, by rw [lookupPos, if_pos hx]⟩
      · rcases List.mem_cons.mp he with rfl | he'
        · exact absurd (beq_self_eq_true e.1) (by exact hx)
        · obtain ⟨e', h1, h2, h3⟩ := ih e he'
          exact ⟨e', List.mem_cons_of_mem _ h1, h2, by rw [lookupPos, if_neg hx]; exact h3⟩

/-- `extractAllTestFunctions` succeeds under the 1-based bounds
precondition. -/
theorem extractAllTestFunctions_some (lines : List String) (pos : PosMap)
    (hpre : ∀ e ∈ pos, 1 ≤ e.2.1 ∧ e.2.1 ≤ e.2.2 ∧ e.2.2 ≤ (lines.length : Int)) :
    ∃ r, extractAllTestFunctions lines (createSortedFuncPositions pos) pos = some r := by
  apply foldlM_option_some
  intro b f hf
  by_cases hg : 0 ≤ f.startLine ∧ f.startLine < (lines.length : Int)
  · obtain ⟨e, he, hfe⟩ := mem_createSortedFuncPositions hf
    obtain ⟨e', he', hname, hlook⟩ := lookupPos_of_mem pos e he
    have hpre' := hpre e' he'
    have hfname : f.name = e.1 := by rw [hfe]
    obtain ⟨r, hr⟩ := extractTestFunctionWithComments_some lines f.name pos
      (by rw [hfname, hlook]; exact hpre'.1)
      (by rw [hfname, hlook]; omega)
      (by rw [hfname, hlook]; exact hpre'.2.2)
    refine ⟨b ++ [r.1], ?_⟩
    rw [extractStep, if_pos hg, hr, bind_some_eq]
    rfl
  · exact ⟨b, by rw [extractStep, if_neg hg]; rfl⟩

/-- Claim C10: under the precondition `1 <= start <= end <= length` for
every declaration, `separateTestAndNonTestContent` performs only in-bounds
accesses (it returns a value rather than the modelled panic); and the
precondition is genuine — with an in-bounds start but an end beyond the
file, the extraction phase goes out of bounds, because only the start line
is bounds-checked before the slice loop runs to the end line. -/
theorem claim_C10 :
    (∀ (lines : List String) (pos : PosMap),
        (∀ e ∈ pos, 1 ≤ e.2.1 ∧ e.2.1 ≤ e.2.2 ∧ e.2.2 ≤ (lines.length : Int)) →
        (separateTestAndNonTestContent lines pos).isSome = true) ∧
    separateTestAndNonTestContent ["package main", "func Test_a() \x7b\x7d"]
      [("Test_a", 2, 5)] = none := by
  constructor
  · intro lines pos hpre
    obtain ⟨p, hp⟩ := markProcessedLines_some lines (createSortedFuncPositions pos)
    obtain ⟨tfs, htfs⟩ := extractAllTestFunctions_some lines pos hpre
    rw [separateTestAndNonTestContent, hp, bind_some_eq, htfs, bind_some_eq]
    exact Option.isSome_some
  · decide

/-- Claim C10, witness: a two-line file with one in-bounds declaration. -/
theorem claim_C10_witness :
    (separateTestAndNonTestContent ["package main", "func Test_a() \x7b\x7d"]
      [("Test_a", 1, 2)]).isSome = true :=
  claim_C10.1 ["package main", "func Test_a() \x7b\x7d"] [("Test_a", 1, 2)]
    (by decide)

/-- `collectNonTestAux` keeps exactly the lines at unmarked indices, in
index order. -/
theorem collectNonTestAux_eq (p : Int → Bool) :
    ∀ (ls : List String) (i : Int),
      collectNonTestAux p ls i =
        (List.range ls.length).filterMap
          (fun k : Nat => if p (i + (k : Int)) then none else ls.get? k) := by
  intro ls
  induction ls with
  | nil => intro i; simp [collectNonTestAux]
  | cons l t ih =>
      intro i
      have hshift : List.filterMap
          ((fun k : Nat => if p (i + (k : Int)) then none else (l :: t).get? k) ∘ Nat.succ)
          (List.range t.length) =
          List.filterMap (fun k : Nat => if p ((i + 1) + (k : Int)) then none else t.get? k)
            (List.range t.length) := by
        apply List.filterMap_congr
        intro k _
        show (if p (i + ((k + 1 : Nat) : Int)) then none else (l :: t).get? (k + 1)) = _
        have harith : i + ((k + 1 : Nat) : Int) = (i + 1) + (k : Int) := by push_cast; ring
        rw [harith, List.get?_cons_succ]
      rw [collectNonTestAux]
      rw [List.length_cons, List.range_succ_eq_map, List.filterMap_cons, List.filterMap_map,
        hshift, ← ih (i + 1)]
      by_cases hpi : p i = true
      · have h0 : (if p (i + ((0 : Nat) : Int)) then none else (l :: t).get? 0) =
            (none : Option String) := by simp [hpi]
        rw [h0, if_pos hpi]
      · have h0 : (if p (i + ((0 : Nat) : Int)) then none else (l :: t).get? 0) =
            some l := by simp [hpi]
        rw [h0, if_neg hpi]

/-- The remainder is a sublist of the input lines: original order is kept
and no line is invented. -/
theorem collectNonTestAux_sublist (p : Int → Bool) :
    ∀ (ls : List String) (i : Int), (collectNonTestAux p ls i).Sublist ls := by
  intro ls
  induction ls with
  | nil => intro i; exact List.nil_sublist []
  | cons l t ih =>
      intro i
      rw [collectNonTestAux]
      by_cases hpi : p i = true
      · rw [if_pos hpi]
        exact (ih (i + 1)).cons l
      · rw [if_neg hpi]
        exact (ih (i + 1)).cons₂ l

/-- The marking loop marks exactly the in-bounds indices of its interval on
top of what was marked before. -/
theorem markRangeAux_spec (len : Int) :
    ∀ (fuel : Nat) (p : Int → Bool) (i j : Int),
      markRangeAux len p i fuel j = true ↔
        p j = true ∨ (i ≤ j ∧ j < i + fuel ∧ j < len) := by
  intro fuel
  induction fuel with
  | zero =>
      intro p i j
      rw [markRangeAux]
      constructor
      · exact Or.inl
      · rintro (h | ⟨h1, h2, h3⟩)
        · exact h
        · omega
  | succ fuel ih =>
      intro p i j
      rw [markRangeAux]
      by_cases hi : i < len
      · rw [if_pos hi, ih]
        simp only [Bool.or_eq_true, beq_iff_eq]
        constructor
        · rintro ((rfl | hpj) | ⟨h1, h2, h3⟩)
          · exact Or.inr ⟨le_refl _, by omega, hi⟩
          · exact Or.inl hpj
          · exact Or.inr ⟨by omega, by omega, h3⟩
        · rintro (hpj | ⟨h1, h2, h3⟩)
          · exact Or.inl (Or.inr hpj)
          · by_cases hj : j = i
            · exact Or.inl (Or.inl hj)
            · exact Or.inr ⟨by omega, by omega, h3⟩
      · rw [if_neg hi]
        constructor
        · exact Or.inl
        · rintro (hpj | ⟨h1, h2, h3⟩)
          · exact hpj
          · omega

/-- After folding the marking step, an index is marked iff it was already
marked or lies in some processed function's claimed interval. -/
theorem markProcessedLines_mem (lines : List String) :
    ∀ (fs : List FuncPos) (p₀ p : Int → Bool),
      List.foldlM (markProcessedStep lines) p₀ fs = some p →
      ∀ j : Int, p j = true ↔
        (p₀ j = true ∨ ∃ f ∈ fs, coveredBy lines j f) := by
  intro fs
  induction fs with
  | nil =>
      intro p₀ p h j
      rw [List.foldlM_nil] at h
      cases h
      simp
  | cons f ft ih =>
      intro p₀ p h j
      rw [List.foldlM_cons] at h
      by_cases hg : 0 ≤ f.startLine ∧ f.startLine < (lines.length : Int) ∧
          0 ≤ f.endLine ∧ f.endLine < (lines.length : Int)
      · obtain ⟨cs, hcs, -, -⟩ :=
          findCommentStart_some lines f.startLine hg.1 (le_of_lt hg.2.1)
        obtain ⟨ce, hce, -, -⟩ := findCommentEnd_some lines f.endLine hg.2.2.1 hg.2.2.2
        have hstep : markProcessedStep lines p₀ f =
            some (markRangeAux (lines.length : Int) p₀ cs (ce + 1 - cs).toNat) := by
          rw [markProcessedStep, if_pos hg, hcs, bind_some_eq, hce, bind_some_eq]
          rfl
        rw [hstep, bind_some_eq] at h
        have hci : claimedInterval lines f = some (cs, ce) := by
          rw [claimedInterval, if_pos hg, hcs, bind_some_eq, hce, bind_some_eq]
          rfl
        rw [ih _ _ h j, markRangeAux_spec]
        unfold coveredBy
        constructor
        · rintro ((hp | ⟨h1, h2, h3⟩) | ⟨f', hf', hcov⟩)
          · exact Or.inl hp
          · exact Or.inr ⟨f, List.mem_cons_self _ _, cs, ce, hci, h1, by omega, h3⟩
          · exact Or.inr ⟨f', List.mem_cons_of_mem _ hf', hcov⟩
        · rintro (hp | ⟨f', hf', cs', ce', hci', h1, h2, h3⟩)
          · exact Or.inl (Or.inl hp)
          · rcases List.mem_cons.mp hf' with rfl | hf''
            · rw [hci] at hci'
              have hpair := Option.some.inj hci'
              simp only [Prod.mk.injEq] at hpair
              exact Or.inl (Or.inr ⟨by omega, by omega, h3⟩)
            · exact Or.inr ⟨f', hf'', cs', ce', hci', h1, h2, h3⟩
      · rw [markProcessedStep, if_neg hg] at h
        have h' : List.foldlM (markProcessedStep lines) p₀ ft = some p := h
        have hci : claimedInterval lines f = none := by
          rw [claimedInterval, if_neg hg]
        rw [ih _ _ h' j]
        unfold coveredBy
        constructor
        · rintro (hp | ⟨f', hf', hcov⟩)
          · exact Or.inl hp
          · exact Or.inr ⟨f', List.mem_cons_of_mem _ hf', hcov⟩
        · rintro (hp | ⟨f', hf', cs', ce', hci', h1, h2, h3⟩)
          · exact Or.inl hp
          · rcases List.mem_cons.mp hf' with rfl | hf''
            · rw [hci] at hci'
              cases hci'
            · exact Or.inr ⟨f', hf'', cs', ce', hci', h1, h2, h3⟩

/-- Every line the trailing-blank walk stepped over is blank. -/
theorem findCommentEndAux_blank (lines : List String) :
    ∀ (fuel : Nat) (e r : Int), findCommentEndAux lines e fuel = some r →
      ∀ j, e < j → j ≤ r → ∃ l, getLineAt lines j = some l ∧ trimSpace l = "" := by
  intro fuel
  induction fuel with
  | zero =>
      intro e r h j h1 h2
      rw [findCommentEndAux] at h
      have he : e = r := Option.some.inj h
      omega
  | succ fuel ih =>
      intro e r h j h1 h2
      rw [findCommentEndAux] at h
      cases hl : getLineAt lines (e + 1) with
      | none => rw [hl] at h; simp at h
      | some l =>
          rw [hl, bind_some_eq] at h
          by_cases hb : (trimSpace l == "") = true
          · rw [if_pos hb] at h
            by_cases hj : j = e + 1
            · subst hj
              exact ⟨l, hl, eq_of_beq hb⟩
            · exact ih (e + 1) r h j (by omega) h2
          · rw [if_neg hb] at h
            have he : e = r := Option.some.inj h
            omega

/-- A claimed interval determines the two boundary walks' results. -/
theorem claimedInterval_parts (lines : List String) (f : FuncPos) (cs ce : Int)
    (h : claimedInterval lines f = some (cs, ce)) :
    findCommentStart lines f.startLine = some cs ∧
    findCommentEnd lines f.endLine = some ce := by
  rw [claimedInterval] at h
  by_cases hg : 0 ≤ f.startLine ∧ f.startLine < (lines.length : Int) ∧
      0 ≤ f.endLine ∧ f.endLine < (lines.length : Int)
  · rw [if_pos hg] at h
    cases hcs : findCommentStart lines f.startLine with
    | none => rw [hcs] at h; simp at h
    | some cs' =>
        rw [hcs, bind_some_eq] at h
        cases hce : findCommentEnd lines f.endLine with
        | none => rw [hce] at h; simp at h
        | some ce' =>
            rw [hce, bind_some_eq] at h
            have hpair := Option.some.inj h
            simp only [Prod.mk.injEq] at hpair
            exact ⟨by rw [hpair.1], by rw [hpair.2]⟩
  · rw [if_neg hg] at h
    cases h

/-- Claim C3 (amended): the remainder is exactly the unclaimed lines in
original order; an index is claimed iff it lies in at least one block's
claimed interval (two blocks may both claim an index); claimed lines beyond
a block's declaration end — claimed but not part of any visible content —
are blank padding. -/
theorem claim_C3 (lines : List String) (pos : PosMap)
    (tf : List TestFunction) (ntl : List String)
    (hsep : separateTestAndNonTestContent lines pos = some (tf, ntl)) :
    ∃ p, markProcessedLines lines (createSortedFuncPositions pos) = some p ∧
      ntl = collectNonTestLines lines p ∧
      (collectNonTestAux p lines 0).Sublist lines ∧
      collectNonTestAux p lines 0 =
        (List.range lines.length).filterMap
          (fun k : Nat => if p (k : Int) then none else lines.get? k) ∧
      (∀ j : Int, p j = true ↔
        ∃ f ∈ createSortedFuncPositions pos, coveredBy lines j f) ∧
      (∀ f ∈ createSortedFuncPositions pos, ∀ cs ce,
        claimedInterval lines f = some (cs, ce) →
        ∀ j, f.endLine < j → j ≤ ce →
          ∃ l, getLineAt lines j = some l ∧ trimSpace l = "") := by
  obtain ⟨p, hp⟩ := markProcessedLines_some lines (createSortedFuncPositions pos)
  refine ⟨p, hp, ?_, collectNonTestAux_sublist p lines 0, ?_, ?_, ?_⟩
  · rw [separateTestAndNonTestContent, hp, bind_some_eq] at hsep
    cases hx : extractAllTestFunctions lines (createSortedFuncPositions pos) pos with
    | none => rw [hx] at hsep; simp at hsep
    | some tfs =>
        rw [hx, bind_some_eq] at hsep
        have hpair := Option.some.inj hsep
        simp only [Prod.mk.injEq] at hpair
        exact hpair.2.symm
  · rw [collectNonTestAux_eq p lines 0]
    apply List.filterMap_congr
    intro k _
    rw [zero_add]
  · intro j
    rw [markProcessedLines_mem lines _ _ p hp j]
    simp
  · intro f _ cs ce hci j h1 h2
    have hparts := claimedInterval_parts lines f cs ce hci
    have hend := hparts.2
    rw [findCommentEnd] at hend
    exact findCommentEndAux_blank lines _ f.endLine ce hend j h1 h2

/-- Claim C3, witness: on the two-function input, line 2 (claimed by both
blocks, beyond the first block's end) is blank. -/
theorem claim_C3_witness :
    ∃ l, getLineAt c3Lines 2 = some l ∧ trimSpace l = "" := by
  obtain ⟨p, hp, hntl, hsub, heq, hcov, hpad⟩ :=
    claim_C3 c3Lines [("Test_a", 1, 2), ("Test_b", 5, 6)]
      [⟨"Test_a", ["func Test_a(t *testing.T) \x7b", "\x7d"]⟩,
        ⟨"Test_b", ["", "// c", "func Test_b(t *testing.T) \x7b", "\x7d"]⟩]
      [] (by decide)
  exact hpad ⟨"Test_a", 0, 1⟩ (by decide) 0 2 (by decide) 2 (by decide) (by decide)

/-- The two backward scans have identical loop bodies. -/
theorem isInImportBlockAux_eq (lines : List String) :
    ∀ n, isInImportBlockAux lines n = isEndOfImportBlockAux lines n := by
  intro n
  induction n with
  | zero => rfl
  | succ m ih =>
      rw [isInImportBlockAux, isEndOfImportBlockAux]
      cases getLineAt lines ((m : Int) + 1) with
      | none => rfl
      | some l => rw [bind_some_eq, bind_some_eq, ih]

/-- Stepping the scan over a run of tolerated lines does not change its
verdict. -/
theorem scanEnd_skip (lines : List String) (j : Nat) :
    ∀ n, j ≤ n →
      (∀ k : Nat, j < k → k ≤ n → ∃ l, getLineAt lines (k : Int) = some l ∧
        importScanSkips l = true) →
      isEndOfImportBlockAux lines n = isEndOfImportBlockAux lines j := by
  intro n
  induction n with
  | zero =>
      intro hj _
      have hj0 : j = 0 := by omega
      rw [hj0]
  | succ m ih =>
      intro hj hskip
      by_cases hjm : j = m + 1
      · rw [hjm]
      · obtain ⟨l, hl, hs⟩ := hskip (m + 1) (by omega) le_rfl
        push_cast at hl
        rw [isEndOfImportBlockAux, hl, bind_some_eq]
        simp only [importScanSkips, Bool.or_eq_true] at hs
        by_cases h1 : (trimSpace l == "" || strStarts (trimSpace l) "//") = true
        · rw [if_pos h1]
          exact ih (by omega) (fun k hk1 hk2 => hskip k hk1 (by omega))
        · have h2 : strContainsChar (trimSpace l) quoteChar = true := by
            rcases hs with (hs | hs) | hs
            · exact absurd (by simp [hs]) h1
            · exact absurd (by simp [hs]) h1
            · exact hs
          rw [if_neg h1, if_pos h2]
          exact ih (by omega) (fun k hk1 hk2 => hskip k hk1 (by omega))

/-- When the scan reaches a line it does not tolerate, its verdict is
`true` exactly for the import-block opener. -/
theorem scanEnd_stop (lines : List String) (j : Nat) (l : String)
    (hl : getLineAt lines (j : Int) = some l) (hns : importScanSkips l = false) :
    isEndOfImportBlockAux lines j = some (trimSpace l == importBlockStart) := by
  simp only [importScanSkips, Bool.or_eq_false_iff] at hns
  have h1 : ¬((trimSpace l == "" || strStarts (trimSpace l) "//") = true) := by
    simp [hns.1.1, hns.1.2]
  have h2 : ¬(strContainsChar (trimSpace l) quoteChar = true) := by
    simp [hns.2]
  have hrest : ∀ step : Option Bool,
      (if (trimSpace l == importBlockStart) = true then pure true
       else if strStarts (trimSpace l) "package " = true then pure false
       else pure false : Option Bool) = some (trimSpace l == importBlockStart) := by
    intro _
    by_cases hb : (trimSpace l == importBlockStart) = true
    · rw [if_pos hb, hb]; rfl
    · rw [if_neg hb, Bool.eq_false_iff.mpr hb]
      by_cases hp : strStarts (trimSpace l) "package " = true
      · rw [if_pos hp]; rfl
      · rw [if_neg hp]; rfl
  cases j with
  | zero =>
      have hl0 : getLineAt lines 0 = some l := hl
      rw [isEndOfImportBlockAux, hl0, bind_some_eq, if_neg h1, if_neg h2]
      exact hrest (some true)
  | succ m =>
      push_cast at hl
      rw [isEndOfImportBlockAux, hl, bind_some_eq, if_neg h1, if_neg h2]
      exact hrest (some true)

/-- If every line below the start is tolerated, the scan runs off the top
of the file and answers `false`. -/
theorem scanEnd_all_skip (lines : List String) (n : Nat)
    (hskip : ∀ k : Nat, k ≤ n → ∃ l, getLineAt lines (k : Int) = some l ∧
      importScanSkips l = true) :
    isEndOfImportBlockAux lines n = some false := by
  have h0 := scanEnd_skip lines 0 n (by omega) (fun k _ hk2 => hskip k hk2)
  rw [h0]
  obtain ⟨l, hl, hs⟩ := hskip 0 (by omega)
  have hl0 : getLineAt lines 0 = some l := hl
  rw [isEndOfImportBlockAux, hl0, bind_some_eq]
  simp only [importScanSkips, Bool.or_eq_true] at hs
  by_cases h1 : (trimSpace l == "" || strStarts (trimSpace l) "//") = true
  · rw [if_pos h1]; rfl
  · have h2 : strContainsChar (trimSpace l) quoteChar = true := by
      rcases hs with (hs | hs) | hs
      · exact absurd (by simp [hs]) h1
      · exact absurd (by simp [hs]) h1
      · exact hs
    rw [if_neg h1, if_pos h2]
    rfl

/-- Claim C8 (amended): the two scans agree everywhere; the scan returns
`true` exactly when the first line it does not step over is the
import-block-opening token (and `false` on a package line or other
unrecognized content), tolerating every interleaving of blank lines, line
comments and quoted lines — and it returns `false` when it runs off the top
of the file with everything tolerated. -/
theorem claim_C8 :
    (∀ (lines : List String) (idx : Int),
        isInImportBlock lines idx = isEndOfImportBlock lines idx) ∧
    (∀ (lines : List String) (idx j : Int) (lj : String), 0 ≤ j → j < idx →
        getLineAt lines j = some lj → importScanSkips lj = false →
        (∀ k : Int, j < k → k < idx →
          ∃ l, getLineAt lines k = some l ∧ importScanSkips l = true) →
        isEndOfImportBlock lines idx = some (trimSpace lj == importBlockStart)) ∧
    (∀ (lines : List String) (idx : Int), 0 < idx →
        (∀ k : Int, 0 ≤ k → k < idx →
          ∃ l, getLineAt lines k = some l ∧ importScanSkips l = true) →
        isEndOfImportBlock lines idx = some false) := by
  refine ⟨?_, ?_, ?_⟩
  · intro lines idx
    rw [isInImportBlock, isEndOfImportBlock]
    by_cases h : idx - 1 < 0
    · rw [if_pos h, if_pos h]
    · rw [if_neg h, if_neg h, isInImportBlockAux_eq]
  · intro lines idx j lj hj0 hjidx hlj hns hskip
    rw [isEndOfImportBlock, if_neg (by omega)]
    have hstep := scanEnd_skip lines j.toNat (idx - 1).toNat (by omega)
      (fun k hk1 hk2 => by
        obtain ⟨l, hl, hsk⟩ := hskip (k : Int) (by omega) (by omega)
        exact ⟨l, hl, hsk⟩)
    rw [hstep]
    have hlj' : getLineAt lines ((j.toNat : Nat) : Int) = some lj := by
      rw [Int.toNat_of_nonneg hj0]
      exact hlj
    exact scanEnd_stop lines j.toNat lj hlj' hns
  · intro lines idx hpos hskip
    rw [isEndOfImportBlock, if_neg (by omega)]
    exact scanEnd_all_skip lines (idx - 1).toNat (fun k hk => by
      obtain ⟨l, hl, hsk⟩ := hskip (k : Int) (by omega) (by omega)
      exact ⟨l, hl, hsk⟩)

/-- Claim C8, witness: with a line comment and a quoted line between the
`)` and the opener the scan answers `true`. -/
theorem claim_C8_witness : isEndOfImportBlock c8TrueLines 4 = some true := by
  have h := claim_C8.2.1 c8TrueLines 4 1 "import (" (by decide) (by decide)
    (by decide) (by decide)
    (by
      intro k h1 h2
      interval_cases k
      · exact ⟨"// c", by decide, by decide⟩
      · exact ⟨"\x22fmt\x22", by decide, by decide⟩)
  exact h

/-- Claim C8, counterexample: between the closing parenthesis at index 4 and
the opening token at index 1 there are only a quoted line and a
block-comment line, yet the backward scan answers `false` — block comments
are not tolerated inside the import block. -/
theorem claim_C8_cex :
    isEndOfImportBlock c8Lines 4 = some false ∧
    getLineAt c8Lines 1 = some importBlockStart ∧
    strStarts (trimSpace "/* c */") "/*" = true ∧
    strContainsChar (trimSpace "\x22fmt\x22") quoteChar = true := by
  refine ⟨by decide, by decide, by decide, by decide⟩

/-! ## Idempotence on output-shaped files (claim C6) -/

/-- Go's string order is irreflexive. -/
theorem charListLt_irrefl : ∀ l : List Char, charListLt l l = false
  | [] => rfl
  | c :: cs => by
      rw [charListLt]
      simp only [beq_self_eq_true, if_pos]
      exact charListLt_irrefl cs

/-- Go's string order is transitive. -/
theorem charListLt_trans : ∀ a b c : List Char,
    charListLt a b = true → charListLt b c = true → charListLt a c = true
  | _, [], [], hab, hbc => by simp [charListLt] at hbc
  | [], _ :: _, [], hab, hbc => by simp [charListLt] at hbc
  | [], _ :: _, _ :: _, _, _ => by simp [charListLt]
  | _ :: _, [], _ :: _, hab, _ => by simp [charListLt] at hab
  | a :: as, b :: bs, c :: cs, hab, hbc => by
      rw [charListLt] at hab hbc ⊢
      by_cases hab1 : a = b
      · subst hab1
        simp only [beq_self_eq_true, if_pos] at hab
        by_cases hbc1 : a = c
        · subst hbc1
          simp only [beq_self_eq_true, if_pos] at hbc ⊢
          exact charListLt_trans as bs cs hab hbc
        · have hb : (a == c) = false := beq_eq_false_iff_ne.mpr hbc1
          rw [hb] at hbc ⊢
          exact hbc
      · have hb1 : (a == b) = false := beq_eq_false_iff_ne.mpr hab1
        rw [hb1] at hab
        by_cases hbc1 : b = c
        · subst hbc1
          have hb2 : (a == b) = false := hb1
          rw [hb2]
          exact hab
        · have hb2 : (b == c) = false := beq_eq_false_iff_ne.mpr hbc1
          rw [hb2] at hbc
          have hac : a < c := lt_trans (of_decide_eq_true hab) (of_decide_eq_true hbc)
          have hne : a ≠ c := ne_of_lt hac
          rw [beq_eq_false_iff_ne.mpr hne]
          exact decide_eq_true hac

/-- A list sorted by strictly ascending names is a fixed point of the name
sort. -/
theorem sortByName_eq_self :
    ∀ l : List TestFunction,
      List.Chain' (fun a b => strLt a.Name b.Name = true) l → sortByName l = l
  | [], _ => rfl
  | [f], _ => by rw [sortByName, sortByName, insertByName]
  | f :: g :: t, h => by
      rw [sortByName, sortByName_eq_self (g :: t) (List.chain'_cons.mp h).2,
        insertByName, if_pos (List.chain'_cons.mp h).1]

/-- A list sorted by strictly ascending start lines is a fixed point of the
start-line sort. -/
theorem sortByStart_eq_self :
    ∀ l : List FuncPos,
      List.Chain' (fun a b => a.startLine < b.startLine) l → sortByStart l = l
  | [], _ => rfl
  | [f], _ => by rw [sortByStart, sortByStart, insertByStart]
  | f :: g :: t, h => by
      rw [sortByStart, sortByStart_eq_self (g :: t) (List.chain'_cons.mp h).2,
        insertByStart, if_pos (List.chain'_cons.mp h).1]


/-- Consuming a newline-free chunk just accumulates it. -/
theorem splitLinesAcc_no_newline :
    ∀ (a : List Char), '\n' ∉ a →
      ∀ (rest acc : List Char),
        splitLinesAcc (a ++ rest) acc = splitLinesAcc rest (a.reverse ++ acc)
  | [], _ => by intro rest acc; simp
  | c :: a', h => by
      intro rest acc
      have hc : (c == '\n') = false := by
        refine beq_eq_false_iff_ne.mpr fun hcc => ?_
        exact h (by rw [← hcc]; exact List.mem_cons_self c a')
      have ha' : '\n' ∉ a' := fun hm => h (List.mem_cons_of_mem c hm)
      rw [List.cons_append, splitLinesAcc, if_neg (by rw [hc]; exact Bool.false_ne_true)]
      rw [splitLinesAcc_no_newline a' ha' rest (c :: acc)]
      simp

/-- The character data of the newline string. -/
theorem newline_data : ("\n" : String).data = ['\n'] := rfl

/-- Splitting the join of newline-free lines recovers the lines. -/
theorem splitLines_joinLines :
    ∀ (L : List String), L ≠ [] → (∀ l ∈ L, '\n' ∉ l.data) →
      splitLines (joinLines L) = L
  | [], h, _ => absurd rfl h
  | [x], _, hnn => by
      rw [joinLines, splitLines]
      rw [show x.data = x.data ++ ([] : List Char) by simp]
      rw [splitLinesAcc_no_newline x.data (hnn x (by simp)) [] []]
      rw [splitLinesAcc]
      simp
  | x :: y :: t, _, hnn => by
      rw [joinLines_cons x (y :: t) (by simp), splitLines]
      have hd : (x ++ "\n" ++ joinLines (y :: t)).data =
          x.data ++ ('\n' :: (joinLines (y :: t)).data) := by
        rw [String.data_append, String.data_append, newline_data]
        simp
      rw [hd, splitLinesAcc_no_newline x.data (hnn x (by simp)) _ []]
      rw [splitLinesAcc]
      simp only [beq_self_eq_true, if_pos]
      have hrec := splitLines_joinLines (y :: t) (by simp)
        (fun l hl => hnn l (by simp [hl]))
      rw [splitLines] at hrec
      rw [hrec]
      congr 1
      apply String.ext
      simp

/-- The last character of an append with a non-empty right part comes from
the right part. -/
theorem hasTrailingNewline_append_right (A B : String) (h : B.data ≠ []) :
    hasTrailingNewline (A ++ B) = hasTrailingNewline B := by
  rw [hasTrailingNewline, hasTrailingNewline, String.data_append, List.reverse_append]
  cases hB : B.data.reverse with
  | nil => exact absurd (by simpa using hB) h
  | cons c t => rfl

/-- Joined lines are non-empty when the last line is. -/
theorem joinLines_data_ne_nil :
    ∀ (L : List String) (lst : String), L.getLast? = some lst → lst.data ≠ [] →
      (joinLines L).data ≠ []
  | [], lst, h, _ => by simp at h
  | [x], lst, h, hne => by
      simp only [List.getLast?_singleton, Option.some.injEq] at h
      rw [joinLines, h]
      exact hne
  | x :: y :: t, lst, h, hne => by
      have h' : (y :: t).getLast? = some lst := List.getLast?_cons_cons.symm.trans h
      rw [joinLines_cons x (y :: t) (by simp)]
      intro habs
      have hd : (x ++ "\n" ++ joinLines (y :: t)).data =
          x.data ++ ('\n' :: (joinLines (y :: t)).data) := by
        rw [String.data_append, String.data_append, newline_data]
        simp
      rw [hd] at habs
      simp at habs

/-- Joined lines do not end in a newline when the last line is non-empty
and newline-free. -/
theorem hasTrailingNewline_joinLines :
    ∀ (L : List String) (lst : String), L.getLast? = some lst →
      '\n' ∉ lst.data → lst.data ≠ [] →
      hasTrailingNewline (joinLines L) = false
  | [], lst, h, _, _ => by simp at h
  | [x], lst, h, hnn, hne => by
      simp only [List.getLast?_singleton, Option.some.injEq] at h
      subst h
      rw [joinLines, hasTrailingNewline]
      cases hx : x.data.reverse with
      | nil => exact absurd (by simpa using hx) hne
      | cons c t =>
          have hc : c ∈ x.data := by
            have hm : c ∈ x.data.reverse := by rw [hx]; exact List.mem_cons_self c t
            simpa using hm
          exact beq_eq_false_iff_ne.mpr (fun hcc => hnn (hcc ▸ hc))
  | x :: y :: t, lst, h, hnn, hne => by
      have h' : (y :: t).getLast? = some lst := List.getLast?_cons_cons.symm.trans h
      rw [joinLines_cons x (y :: t) (by simp)]
      rw [show x ++ "\n" ++ joinLines (y :: t) =
        (x ++ "\n") ++ joinLines (y :: t) from rfl]
      rw [hasTrailingNewline_append_right _ _
        (joinLines_data_ne_nil (y :: t) lst h' hne)]
      exact hasTrailingNewline_joinLines (y :: t) lst h' hnn hne

theorem getLineAt_bounds {lines : List String} {i : Int} {l : String}
    (h : getLineAt lines i = some l) : 0 ≤ i ∧ i < (lines.length : Int) := by
  rw [getLineAt] at h
  by_cases hi : i < 0
  · rw [if_pos hi] at h; cases h
  · rw [if_neg hi] at h
    obtain ⟨hlt, -⟩ := List.get?_eq_some.mp h
    omega

theorem getLineAt_append_right (A B : List String) (k : Int) (hk : 0 ≤ k) :
    getLineAt (A ++ B) ((A.length : Int) + k) = getLineAt B k := by
  rw [getLineAt, getLineAt, if_neg (by omega), if_neg (by omega)]
  have h1 : ((A.length : Int) + k).toNat = A.length + k.toNat := by omega
  rw [h1, List.get?_append_right (by omega)]
  congr 1
  omega

theorem getLineAt_append_left (A B : List String) (k : Int) (hk : 0 ≤ k)
    (hlt : k < (A.length : Int)) :
    getLineAt (A ++ B) k = getLineAt A k := by
  rw [getLineAt, getLineAt, if_neg (by omega), if_neg (by omega)]
  exact List.get?_append (by omega)

theorem collectRangeAux_slice (lines : List String) :
    ∀ (fuel : Nat) (i : Int), 0 ≤ i → i + fuel ≤ (lines.length : Int) →
      collectRangeAux lines i fuel = some ((lines.drop i.toNat).take fuel) := by
  intro fuel
  induction fuel with
  | zero => intro i _ _; simp [collectRangeAux]
  | succ fuel ih =>
      intro i h0 hlen
      have hcast : ((fuel + 1 : Nat) : Int) = (fuel : Int) + 1 := by push_cast; ring
      rw [hcast] at hlen
      have hi : i.toNat < lines.length := by omega
      have hl : getLineAt lines i = some lines[i.toNat] := by
        rw [getLineAt, if_neg (by omega)]
        exact List.get?_eq_get hi
      rw [collectRangeAux, hl, bind_some_eq, ih (i + 1) (by omega) (by omega), bind_some_eq]
      have hdrop : lines.drop i.toNat = lines[i.toNat] :: lines.drop (i.toNat + 1) :=
        List.drop_eq_getElem_cons hi
      have htn : (i + 1).toNat = i.toNat + 1 := by omega
      rw [htn, hdrop, List.take_succ_cons]
      rfl

theorem lookupPos_nodup :
    ∀ (m : PosMap), (m.map Prod.fst).Nodup → ∀ e ∈ m, lookupPos m e.1 = e.2
  | [], _, e, he => absurd he (List.not_mem_nil e)
  | x :: xs, hnd, e, he => by
      rw [List.map_cons, List.nodup_cons] at hnd
      rcases List.mem_cons.mp he with rfl | he'
      · rw [lookupPos, if_pos (beq_self_eq_true _)]
      · have hne : x.1 ≠ e.1 := fun hx => hnd.1 (hx ▸ List.mem_map_of_mem Prod.fst he')
        rw [lookupPos, if_neg (by simp [hne])]
        exact lookupPos_nodup xs hnd.2 e he'

theorem dropTrailingBlankLines_spec (X : List String) (lst : String)
    (h : X.getLast? = some lst) (hnb : trimSpace lst ≠ "") :
    dropTrailingBlankLines (X ++ [""]) = X := by
  rw [dropTrailingBlankLines, List.reverse_append]
  rw [show ([""] : List String).reverse ++ X.reverse = "" :: X.reverse from rfl]
  rw [List.dropWhile_cons, if_pos (by decide)]
  cases hrev : X.reverse with
  | nil =>
      exfalso
      have : X = [] := by simpa using congrArg List.reverse hrev
      rw [this] at h
      cases h
  | cons a t =>
      have ha : a = lst := by
        have hh : X.getLast? = some a := by
          rw [← List.head?_reverse, hrev]
          rfl
        rw [h] at hh
        exact (Option.some.inj hh).symm
      rw [List.dropWhile_cons,
        if_neg (fun hc => hnb (ha ▸ eq_of_beq hc))]
      rw [← hrev, List.reverse_reverse]

theorem stripLeadingBlankLines_sep (hd : String) (t : List String)
    (hnb : trimSpace hd ≠ "") :
    stripLeadingBlankLines ("" :: hd :: t) = hd :: t := by
  rw [stripLeadingBlankLines, List.dropWhile_cons, if_pos (by decide),
    List.dropWhile_cons, if_neg (fun hc => hnb (eq_of_beq hc))]



theorem findCommentStartAux_run (lines : List String) (m : Nat) :
    ∀ n : Nat, m ≤ n →
      (∀ k : Nat, m ≤ k → k < n → ∃ l, getLineAt lines (k : Int) = some l ∧
        commentish l = true) →
      (m = 0 ∨ ∃ l, getLineAt lines ((m : Int) - 1) = some l ∧ commentish l = false) →
      findCommentStartAux lines n = some m := by
  intro n
  induction n with
  | zero =>
      intro hm _ _
      have hm0 : m = 0 := by omega
      rw [hm0, findCommentStartAux]
      rfl
  | succ n' ih =>
      intro hm hrun hstop
      by_cases hmn : m = n' + 1
      · rcases hstop with h0 | ⟨l, hl, hns⟩
        · omega
        · have harith : ((m : Int) - 1) = (n' : Int) := by omega
          rw [harith] at hl
          rw [findCommentStartAux, hl, bind_some_eq]
          rw [if_neg (by
            rw [show (strStarts (trimSpace l) "//" || strStarts (trimSpace l) "/*" ||
              trimSpace l == "") = commentish l from rfl, hns]
            exact Bool.false_ne_true)]
          rw [hmn]
          rfl
      · obtain ⟨l, hl, hc⟩ := hrun n' (by omega) (by omega)
        rw [findCommentStartAux, hl, bind_some_eq]
        rw [if_pos (by
          rw [show (strStarts (trimSpace l) "//" || strStarts (trimSpace l) "/*" ||
            trimSpace l == "") = commentish l from rfl, hc])]
        exact ih (by omega) (fun k hk1 hk2 => hrun k hk1 (by omega)) hstop

theorem findCommentStart_run (lines : List String) (m n : Int) (h0 : 0 ≤ m)
    (hmn : m ≤ n) (hn : 0 < n)
    (hrun : ∀ k : Int, m ≤ k → k < n → ∃ l, getLineAt lines k = some l ∧
      commentish l = true)
    (hstop : m = 0 ∨ ∃ l, getLineAt lines (m - 1) = some l ∧ commentish l = false) :
    findCommentStart lines n = some m := by
  rw [findCommentStart, if_neg (by omega)]
  have haux := findCommentStartAux_run lines m.toNat n.toNat (by omega)
    (fun k hk1 hk2 => hrun (k : Int) (by omega) (by omega))
    (by
      rcases hstop with h | ⟨l, hl, hns⟩
      · exact Or.inl (by omega)
      · refine Or.inr ⟨l, ?_, hns⟩
        rw [show ((m.toNat : Nat) : Int) - 1 = m - 1 by omega]
        exact hl)
  rw [haux]
  simp only [Option.map_some']
  exact congrArg some (Int.toNat_of_nonneg h0)

theorem findCommentEnd_one (lines : List String) (e : Int) (l : String)
    (h1 : getLineAt lines (e + 1) = some l) (hb : trimSpace l = "")
    (h2 : e + 2 = (lines.length : Int) ∨
      ∃ l2, getLineAt lines (e + 2) = some l2 ∧ trimSpace l2 ≠ "") :
    findCommentEnd lines e = some (e + 1) := by
  have hbound := getLineAt_bounds h1
  rw [findCommentEnd]
  obtain ⟨f', hf'⟩ : ∃ f', ((lines.length : Int) - 1 - e).toNat = f' + 1 :=
    ⟨((lines.length : Int) - 1 - e).toNat - 1, by omega⟩
  rw [hf', findCommentEndAux, h1, bind_some_eq, if_pos (by rw [hb]; rfl)]
  rcases h2 with hlen | ⟨l2, hl2, hnb⟩
  · have hf0 : f' = 0 := by omega
    rw [hf0, findCommentEndAux]
    rfl
  · have hb2 := getLineAt_bounds hl2
    obtain ⟨f'', hf''⟩ : ∃ f'', f' = f'' + 1 := ⟨f' - 1, by omega⟩
    rw [hf'', findCommentEndAux]
    rw [show e + 1 + 1 = e + 2 from by ring, hl2, bind_some_eq]
    rw [if_neg (fun hc => hnb (eq_of_beq hc))]
    rfl

theorem extractAll_forall2 (lines : List String) (pos : PosMap)
    {sfs : List FuncPos} {outs : List TestFunction}
    (h : List.Forall₂ (fun f o =>
      (0 ≤ f.startLine ∧ f.startLine < (lines.length : Int)) ∧
      ∃ e2, extractTestFunctionWithComments lines f.name pos = some (o, e2)) sfs outs) :
    ∀ acc, List.foldlM (extractStep lines pos) acc sfs = some (acc ++ outs) := by
  induction h with
  | nil => intro acc; rw [List.foldlM_nil]; simp
  | cons hfo htail ih =>
      intro acc
      obtain ⟨hg, e2, hx⟩ := hfo
      rw [List.foldlM_cons]
      rw [show extractStep lines pos acc _ =
        some (acc ++ [_]) from by rw [extractStep, if_pos hg, hx, bind_some_eq]; rfl]
      rw [bind_some_eq, ih]
      simp


theorem mem_of_getLast?_eq {α : Type} {l : List α} {a : α}
    (h : l.getLast? = some a) : a ∈ l := by
  obtain ⟨hne, heq⟩ := List.mem_getLast?_eq_getLast (Option.mem_def.mpr h)
  rw [heq]
  exact List.getLast_mem hne

theorem getLast?_cons_of_ne_nil {α : Type} (a : α) {l : List α} (h : l ≠ []) :
    (a :: l).getLast? = l.getLast? := by
  cases l with
  | nil => exact absurd rfl h
  | cons b t => exact List.getLast?_cons_cons

theorem commentish_blank : commentish "" = true := by decide

theorem commentish_false_nonblank {l : String} (h : commentish l = false) :
    trimSpace l ≠ "" := by
  intro habs
  rw [commentish, habs] at h
  simp at h

theorem trimSpace_nonblank_ne_nil {l : String} (h : trimSpace l ≠ "") :
    l.data ≠ [] := by
  intro habs
  apply h
  have hl : l = "" := by
    have : l = ⟨[]⟩ := by
      cases l
      simp at habs
      rw [habs]
    rw [this]
  rw [hl]
  rfl

theorem layoutAux_head (bs : List BlockShape) :
    (layoutLinesAux bs ++ [""]).get? 0 = some "" := by
  cases bs <;> rfl

theorem blockLines_getLast {b : BlockShape} (hgb : goodBlock b) :
    ∃ lst, (blockLines b).getLast? = some lst ∧ commentish lst = false ∧
      '\n' ∉ lst.data := by
  obtain ⟨-, hbody, -, ⟨lst, hlst, hns⟩, hnn⟩ := hgb
  refine ⟨lst, ?_, hns, hnn lst ?_⟩
  · rw [blockLines, List.getLast?_append, hlst]
    rfl
  · rw [blockLines]
    exact List.mem_append_right _ (mem_of_getLast?_eq hlst)

theorem layoutLinesAux_getLast :
    ∀ bs : List BlockShape, bs ≠ [] → (∀ b ∈ bs, goodBlock b) →
      ∃ lst, (layoutLinesAux bs).getLast? = some lst ∧ commentish lst = false ∧
        '\n' ∉ lst.data
  | [], h, _ => absurd rfl h
  | [b], _, hbs => by
      obtain ⟨lst, hlst, hns, hnn⟩ := blockLines_getLast (hbs b (by simp))
      have hblne : blockLines b ≠ [] := by
        intro habs
        rw [habs] at hlst
        cases hlst
      refine ⟨lst, ?_, hns, hnn⟩
      rw [layoutLinesAux, layoutLinesAux, List.append_nil,
        getLast?_cons_of_ne_nil _ hblne]
      exact hlst
  | b :: b' :: t, _, hbs => by
      obtain ⟨lst, hlst, hns, hnn⟩ := layoutLinesAux_getLast (b' :: t) (by simp)
        (fun x hx => hbs x (List.mem_cons_of_mem b hx))
      refine ⟨lst, ?_, hns, hnn⟩
      have hne2 : blockLines b ++ layoutLinesAux (b' :: t) ≠ [] := by
        rw [layoutLinesAux]
        simp
      rw [layoutLinesAux, getLast?_cons_of_ne_nil _ hne2, List.getLast?_append, hlst]
      rfl

theorem collectNonTestAux_all_true (p : Int → Bool) :
    ∀ (B : List String) (i : Int),
      (∀ j : Int, i ≤ j → j < i + B.length → p j = true) →
      collectNonTestAux p B i = []
  | [], _, _ => rfl
  | l :: t, i, h => by
      rw [collectNonTestAux, if_pos (h i le_rfl (by simp only [List.length_cons]; omega))]
      exact collectNonTestAux_all_true p t (i + 1) (fun j h1 h2 => h j (by omega)
        (by simp only [List.length_cons] at h2 ⊢; omega))

theorem collectNonTestAux_split (p : Int → Bool) :
    ∀ (A B : List String) (i : Int),
      (∀ j : Int, i ≤ j → j < i + A.length → p j = false) →
      (∀ j : Int, i + A.length ≤ j → j < i + A.length + B.length → p j = true) →
      collectNonTestAux p (A ++ B) i = A
  | [], B, i, _, hB => by
      rw [List.nil_append]
      exact collectNonTestAux_all_true p B i (fun j h1 h2 => hB j
        (by simp only [List.length_nil] at *; omega)
        (by simp only [List.length_nil] at *; omega))
  | a :: A', B, i, hA, hB => by
      rw [List.cons_append, collectNonTestAux,
        if_neg (by rw [hA i le_rfl (by simp only [List.length_cons]; omega)]; exact Bool.false_ne_true)]
      congr 1
      exact collectNonTestAux_split p A' B (i + 1)
        (fun j h1 h2 => hA j (by omega) (by simp only [List.length_cons] at h2 ⊢; omega))
        (fun j h1 h2 => hB j (by simp only [List.length_cons] at h1 ⊢; omega)
          (by simp only [List.length_cons] at h2 ⊢; omega))

theorem sortedFuncsLinesRest_layout :
    ∀ bs : List BlockShape,
      (∀ b ∈ bs, ∃ hd t, blockLines b = hd :: t ∧ trimSpace hd ≠ "") →
      sortedFuncsLinesRest (bs.map extractedBlock) = layoutLinesAux bs
  | [], _ => rfl
  | b :: t, h => by
      obtain ⟨hd, tl, hbl, hnb⟩ := h b (by simp)
      rw [List.map_cons, sortedFuncsLinesRest, layoutLinesAux]
      have hstrip : stripLeadingBlankLines (extractedBlock b).Lines = blockLines b := by
        rw [extractedBlock, hbl]
        exact stripLeadingBlankLines_sep hd tl hnb
      rw [hstrip, sortedFuncsLinesRest_layout t (fun x hx => h x (by simp [hx]))]


theorem getLineAt_concat (P Z : List String) (m : Nat) (x : String) (i : Int)
    (hm : Z.get? m = some x) (hi : i = (P.length : Int) + (m : Int)) :
    getLineAt (P ++ Z) i = some x := by
  rw [hi, getLineAt_append_right P Z (m : Int) (by omega)]
  rw [getLineAt, if_neg (by omega), show ((m : Int)).toNat = m from by omega]
  exact hm

theorem extract_exact (lines : List String) (name : String) (pos : PosMap)
    (cs : Int) (fl : List String)
    (hcs : findCommentStart lines ((lookupPos pos name).1 - 1) = some cs)
    (hsl : collectRangeAux lines cs
      ((lookupPos pos name).2 - 1 + 1 - cs).toNat = some fl) :
    extractTestFunctionWithComments lines name pos =
      some (⟨name, fl⟩, (lookupPos pos name).2 - 1) := by
  rw [extractTestFunctionWithComments, hcs, bind_some_eq, hsl, bind_some_eq]
  rfl

theorem mem_layoutLinesAux :
    ∀ (bs : List BlockShape) (l : String), l ∈ layoutLinesAux bs →
      l = "" ∨ ∃ b ∈ bs, l ∈ blockLines b
  | [], l, h => absurd h (List.not_mem_nil l)
  | b :: t, l, h => by
      rw [layoutLinesAux] at h
      rcases List.mem_cons.mp h with rfl | h'
      · exact Or.inl rfl
      · rcases List.mem_append.mp h' with hb | ht
        · exact Or.inr ⟨b, by simp, hb⟩
        · rcases mem_layoutLinesAux t l ht with h1 | ⟨b', hb', hl'⟩
          · exact Or.inl h1
          · exact Or.inr ⟨b', by simp [hb'], hl'⟩

theorem layoutPosAux_names :
    ∀ (o : Int) (bs : List BlockShape),
      (layoutPosAux o bs).map Prod.fst = bs.map BlockShape.name
  | _, [] => rfl
  | o, b :: t => by
      rw [layoutPosAux, List.map_cons, List.map_cons, layoutPosAux_names]

theorem outputLines_layout (H : List String) :
    ∀ bs : List BlockShape, (∀ b ∈ bs, goodBlock b) →
      bs ≠ [] →
      (H ++ [""]) ++ sortedFuncsLines (bs.map extractedBlock) =
        H ++ layoutLinesAux bs
  | [], _, h => absurd rfl h
  | b :: t, hgb, _ => by
      obtain ⟨hd, hhd, hnbd⟩ := (hgb b (by simp)).2.2.1
      obtain ⟨tl, hbl⟩ : ∃ tl, blockLines b = hd :: tl := by
        cases hblc : blockLines b with
        | nil => rw [hblc] at hhd; cases hhd
        | cons x xs =>
            rw [hblc] at hhd
            exact ⟨xs, by rw [Option.some.inj hhd]⟩
      rw [List.map_cons, sortedFuncsLines]
      have hstrip : stripLeadingBlankLines (extractedBlock b).Lines = blockLines b := by
        rw [extractedBlock, hbl]
        exact stripLeadingBlankLines_sep hd tl hnbd
      rw [hstrip, sortedFuncsLinesRest_layout t (fun x hx => by
        obtain ⟨hd2, hhd2, hnb2⟩ := (hgb x (by simp [hx])).2.2.1
        cases hblc2 : blockLines x with
        | nil => rw [hblc2] at hhd2; cases hhd2
        | cons y ys =>
            rw [hblc2] at hhd2
            exact ⟨y, ys, rfl, by rw [Option.some.inj hhd2]; exact hnb2⟩)]
      rw [layoutLinesAux]
      simp


theorem block_facts (pos : PosMap) (P : List String) (b : BlockShape)
    (rest lines : List String) (plst : String)
    (hlines : lines = P ++ ("" :: (blockLines b ++ rest)))
    (hplst : P.getLast? = some plst) (hpc : commentish plst = false)
    (hgb : goodBlock b)
    (hlk : lookupPos pos b.name =
      ((P.length : Int) + (b.comments.length : Int) + 2,
       (P.length : Int) + (b.comments.length : Int) + (b.body.length : Int) + 1))
    (hr0 : rest.get? 0 = some "")
    (hr1 : rest.length = 1 ∨ ∃ hd2, rest.get? 1 = some hd2 ∧ trimSpace hd2 ≠ "") :
    (0 ≤ (convPos (b.name, (P.length : Int) + (b.comments.length : Int) + 2,
        (P.length : Int) + (b.comments.length : Int) + (b.body.length : Int) + 1)).startLine ∧
      (convPos (b.name, (P.length : Int) + (b.comments.length : Int) + 2,
        (P.length : Int) + (b.comments.length : Int) + (b.body.length : Int) + 1)).startLine
          < (lines.length : Int)) ∧
    (∃ e2, extractTestFunctionWithComments lines b.name pos =
      some (extractedBlock b, e2)) ∧
    (∀ j : Int,
      coveredBy lines j (convPos (b.name, (P.length : Int) + (b.comments.length : Int) + 2,
        (P.length : Int) + (b.comments.length : Int) + (b.body.length : Int) + 1)) ↔
      ((P.length : Int) ≤ j ∧ j ≤ (P.length : Int) + 1 + ((blockLines b).length : Int) ∧
        j < (lines.length : Int))) := by
  obtain ⟨hcomm, hbody, ⟨hd, hhd, hhdnb⟩, ⟨blast, hblast, hblastc⟩, hnn⟩ := hgb
  have hPne : P ≠ [] := by intro h; rw [h] at hplst; cases hplst
  have hP1 : 0 < P.length := List.length_pos.mpr hPne
  have hB1 : 0 < b.body.length := List.length_pos.mpr hbody
  have hblen : (blockLines b).length = b.comments.length + b.body.length := by
    rw [blockLines, List.length_append]
  have hr0len : 0 < rest.length := by
    cases rest with
    | nil => cases hr0
    | cons a t => simp
  have hlen : (lines.length : Int) =
      (P.length : Int) + 1 + ((blockLines b).length : Int) + (rest.length : Int) := by
    rw [hlines]
    simp only [List.length_append, List.length_cons]
    omega
  have g_prev : getLineAt lines ((P.length : Int) - 1) = some plst := by
    rw [hlines, getLineAt_append_left _ _ _ (by omega) (by omega)]
    rw [getLineAt, if_neg (by omega)]
    rw [show ((P.length : Int) - 1).toNat = P.length - 1 from by omega]
    rw [← List.getLast?_eq_get?]
    exact hplst
  have g_sep : getLineAt lines (P.length : Int) = some "" := by
    rw [hlines]
    exact getLineAt_concat P _ 0 "" _ rfl (by omega)
  have g_comm : ∀ k : Int, (P.length : Int) + 1 ≤ k →
      k ≤ (P.length : Int) + (b.comments.length : Int) →
      ∃ cm, getLineAt lines k = some cm ∧ commentish cm = true := by
    intro k hk1 hk2
    have hm : (k - (P.length : Int) - 1).toNat < b.comments.length := by omega
    obtain ⟨cm, hcm⟩ : ∃ cm, b.comments.get? (k - (P.length : Int) - 1).toNat = some cm :=
      ⟨b.comments.get ⟨_, hm⟩, List.get?_eq_get hm⟩
    refine ⟨cm, ?_, hcomm cm (List.get?_mem hcm)⟩
    rw [hlines]
    apply getLineAt_concat P _ ((k - (P.length : Int) - 1).toNat + 1) cm k ?_ (by omega)
    show (blockLines b ++ rest).get? (k - (P.length : Int) - 1).toNat = some cm
    rw [blockLines, List.append_assoc, List.get?_append hm]
    exact hcm
  have g_end1 : getLineAt lines
      ((P.length : Int) + 1 + ((blockLines b).length : Int)) = some "" := by
    rw [hlines]
    apply getLineAt_concat P _ ((blockLines b).length + 1) "" _ ?_ (by omega)
    show (blockLines b ++ rest).get? (blockLines b).length = some ""
    rw [List.get?_append_right (le_refl _)]
    simpa using hr0
  have g_end2 : ∀ hd2, rest.get? 1 = some hd2 →
      getLineAt lines ((P.length : Int) + 2 + ((blockLines b).length : Int)) = some hd2 := by
    intro hd2 h2
    rw [hlines]
    apply getLineAt_concat P _ ((blockLines b).length + 2) hd2 _ ?_ (by omega)
    show (blockLines b ++ rest).get? ((blockLines b).length + 1) = some hd2
    rw [List.get?_append_right (by omega)]
    rw [show (blockLines b).length + 1 - (blockLines b).length = 1 from by omega]
    exact h2
  have hcs_raw : findCommentStart lines
      ((P.length : Int) + (b.comments.length : Int) + 2 - 1) = some (P.length : Int) := by
    apply findCommentStart_run lines (P.length : Int) _ (by omega) (by omega) (by omega)
    · intro k hk1 hk2
      by_cases hkn : k = (P.length : Int)
      · exact ⟨"", by rw [hkn]; exact g_sep, commentish_blank⟩
      · obtain ⟨cm, h1, h2⟩ := g_comm k (by omega) (by omega)
        exact ⟨cm, h1, h2⟩
    · exact Or.inr ⟨plst, g_prev, hpc⟩
  have hce_raw : findCommentEnd lines
      ((P.length : Int) + (b.comments.length : Int) + (b.body.length : Int) + 1 - 1) =
      some ((P.length : Int) + (b.comments.length : Int) + (b.body.length : Int) + 1 - 1 + 1) := by
    apply findCommentEnd_one lines _ ""
    · rw [show (P.length : Int) + (b.comments.length : Int) + (b.body.length : Int) + 1 - 1 + 1 =
        (P.length : Int) + 1 + ((blockLines b).length : Int) from by omega]
      exact g_end1
    · rfl
    · rcases hr1 with h1 | ⟨hd2, h2, hnb2⟩
      · exact Or.inl (by omega)
      · refine Or.inr ⟨hd2, ?_, hnb2⟩
        rw [show (P.length : Int) + (b.comments.length : Int) + (b.body.length : Int) + 1 - 1 + 2 =
          (P.length : Int) + 2 + ((blockLines b).length : Int) from by omega]
        exact g_end2 hd2 h2
  have hcs' : findCommentStart lines ((lookupPos pos b.name).1 - 1) =
      some (P.length : Int) := by
    rw [hlk]
    exact hcs_raw
  have hsl_raw : collectRangeAux lines (P.length : Int) ((blockLines b).length + 1) =
      some ("" :: blockLines b) := by
    rw [collectRangeAux_slice lines ((blockLines b).length + 1) (P.length : Int)
      (by omega) (by omega)]
    congr 1
    rw [hlines, show ((P.length : Int)).toNat = P.length from by omega, List.drop_left]
    rw [show ("" :: (blockLines b ++ rest)) = ("" :: blockLines b) ++ rest from by simp]
    rw [List.take_left' (by rw [List.length_cons])]
  have hsl' : collectRangeAux lines (P.length : Int)
      ((lookupPos pos b.name).2 - 1 + 1 - (P.length : Int)).toNat =
      some ("" :: blockLines b) := by
    rw [hlk]
    convert hsl_raw using 2
    omega
  have hext := extract_exact lines b.name pos (P.length : Int) ("" :: blockLines b) hcs' hsl'
  have hguard : 0 ≤ (convPos (b.name, (P.length : Int) + (b.comments.length : Int) + 2,
        (P.length : Int) + (b.comments.length : Int) + (b.body.length : Int) + 1)).startLine ∧
      (convPos (b.name, (P.length : Int) + (b.comments.length : Int) + 2,
        (P.length : Int) + (b.comments.length : Int) + (b.body.length : Int) + 1)).startLine
          < (lines.length : Int) ∧
      0 ≤ (convPos (b.name, (P.length : Int) + (b.comments.length : Int) + 2,
        (P.length : Int) + (b.comments.length : Int) + (b.body.length : Int) + 1)).endLine ∧
      (convPos (b.name, (P.length : Int) + (b.comments.length : Int) + 2,
        (P.length : Int) + (b.comments.length : Int) + (b.body.length : Int) + 1)).endLine
          < (lines.length : Int) := by
    simp only [convPos]
    refine ⟨by omega, by omega, by omega, by omega⟩
  have hci : claimedInterval lines
      (convPos (b.name, (P.length : Int) + (b.comments.length : Int) + 2,
        (P.length : Int) + (b.comments.length : Int) + (b.body.length : Int) + 1)) =
      some ((P.length : Int),
        (P.length : Int) + (b.comments.length : Int) + (b.body.length : Int) + 1 - 1 + 1) := by
    rw [claimedInterval, if_pos hguard]
    simp only [convPos]
    rw [hcs_raw, bind_some_eq, hce_raw, bind_some_eq]
    rfl
  have hcov : ∀ j : Int,
      coveredBy lines j (convPos (b.name, (P.length : Int) + (b.comments.length : Int) + 2,
        (P.length : Int) + (b.comments.length : Int) + (b.body.length : Int) + 1)) ↔
      ((P.length : Int) ≤ j ∧ j ≤ (P.length : Int) + 1 + ((blockLines b).length : Int) ∧
        j < (lines.length : Int)) := by
    intro j
    unfold coveredBy
    constructor
    · rintro ⟨cs, ce, hci', h1, h2, h3⟩
      rw [hci] at hci'
      have hpair := Option.some.inj hci'
      simp only [Prod.mk.injEq] at hpair
      obtain ⟨hcs1, hce1⟩ := hpair
      refine ⟨by omega, by omega, h3⟩
    · rintro ⟨h1, h2, h3⟩
      exact ⟨_, _, hci, by omega, by omega, h3⟩
  exact ⟨⟨hguard.1, hguard.2.1⟩, ⟨(lookupPos pos b.name).2 - 1, hext⟩, hcov⟩


theorem layout_main (pos : PosMap) :
    ∀ (bs : List BlockShape) (P lines : List String) (plst : String),
      lines = P ++ (layoutLinesAux bs ++ [""]) →
      P.getLast? = some plst → commentish plst = false →
      (∀ b ∈ bs, goodBlock b) →
      (∀ e ∈ layoutPosAux (P.length : Int) bs, lookupPos pos e.1 = e.2) →
      bs ≠ [] →
      List.Chain' (fun a b => a.startLine < b.startLine)
        ((layoutPosAux (P.length : Int) bs).map convPos) ∧
      List.Forall₂ (fun f o =>
        (0 ≤ f.startLine ∧ f.startLine < (lines.length : Int)) ∧
        ∃ e2, extractTestFunctionWithComments lines f.name pos = some (o, e2))
        ((layoutPosAux (P.length : Int) bs).map convPos) (bs.map extractedBlock) ∧
      (∀ j : Int,
        (∃ f ∈ (layoutPosAux (P.length : Int) bs).map convPos, coveredBy lines j f) ↔
        ((P.length : Int) ≤ j ∧ j < (lines.length : Int)))
  | [], _, _, _, _, _, _, _, _, hne => absurd rfl hne
  | [b], P, lines, plst, hlines, hplst, hpc, hgb, hlkAll, _ => by
      have hlines' : lines = P ++ ("" :: (blockLines b ++ [""])) := by
        rw [hlines, layoutLinesAux, layoutLinesAux]
        simp
      obtain ⟨hg, hex, hcv⟩ := block_facts pos P b [""] lines plst hlines' hplst hpc
        (hgb b (by simp))
        (hlkAll _ (by rw [layoutPosAux]; exact List.mem_cons_self _ _))
        rfl (Or.inl rfl)
      have hlenL : (lines.length : Int) =
          (P.length : Int) + 1 + ((blockLines b).length : Int) + 1 := by
        rw [hlines']
        simp only [List.length_append, List.length_cons, List.length_nil]
        omega
      rw [show layoutPosAux (P.length : Int) [b] =
        [(b.name, (P.length : Int) + (b.comments.length : Int) + 2,
          (P.length : Int) + (b.comments.length : Int) + (b.body.length : Int) + 1)] from rfl]
      rw [List.map_cons, List.map_nil, List.map_cons, List.map_nil]
      refine ⟨List.chain'_singleton _, List.Forall₂.cons ⟨hg, hex⟩ List.Forall₂.nil, ?_⟩
      intro j
      constructor
      · rintro ⟨f, hf, hc⟩
        rw [List.mem_singleton] at hf
        subst hf
        obtain ⟨h1, h2, h3⟩ := (hcv j).mp hc
        exact ⟨h1, h3⟩
      · rintro ⟨h1, h2⟩
        exact ⟨_, List.mem_singleton_self _, (hcv j).mpr ⟨h1, by omega, h2⟩⟩
  | b :: b2 :: t, P, lines, plst, hlines, hplst, hpc, hgb, hlkAll, _ => by
      obtain ⟨hd2, hhd2, hnb2⟩ := (hgb b2 (by simp)).2.2.1
      obtain ⟨tl2, hbl2⟩ : ∃ tl2, blockLines b2 = hd2 :: tl2 := by
        cases hblc : blockLines b2 with
        | nil => rw [hblc] at hhd2; cases hhd2
        | cons y ys =>
            rw [hblc] at hhd2
            exact ⟨ys, by rw [Option.some.inj hhd2]⟩
      have hlines' : lines =
          P ++ ("" :: (blockLines b ++ (layoutLinesAux (b2 :: t) ++ [""]))) := by
        rw [hlines]
        rw [show layoutLinesAux (b :: b2 :: t) =
          "" :: (blockLines b ++ layoutLinesAux (b2 :: t)) from rfl]
        simp
      obtain ⟨hg, hex, hcv⟩ := block_facts pos P b (layoutLinesAux (b2 :: t) ++ [""])
        lines plst hlines' hplst hpc (hgb b (by simp))
        (hlkAll _ (by rw [layoutPosAux]; exact List.mem_cons_self _ _))
        (by rw [show layoutLinesAux (b2 :: t) =
          "" :: (blockLines b2 ++ layoutLinesAux t) from rfl]; rfl)
        (Or.inr ⟨hd2, by
          rw [show layoutLinesAux (b2 :: t) =
            "" :: (blockLines b2 ++ layoutLinesAux t) from rfl, hbl2]
          rfl, hnb2⟩)
      obtain ⟨alst, halst, hac, hann⟩ := blockLines_getLast (hgb b (by simp))
      have hblne : blockLines b ≠ [] := by
        intro h
        rw [h] at halst
        cases halst
      have hplst' : (P ++ ("" :: blockLines b)).getLast? = some alst := by
        rw [List.getLast?_append, getLast?_cons_of_ne_nil _ hblne, halst]
        rfl
      have hoff : (((P ++ ("" :: blockLines b)).length : Nat) : Int) =
          (P.length : Int) + 1 + ((blockLines b).length : Int) := by
        simp only [List.length_append, List.length_cons]
        omega
      have hlines'' : lines =
          (P ++ ("" :: blockLines b)) ++ (layoutLinesAux (b2 :: t) ++ [""]) := by
        rw [hlines']
        simp
      obtain ⟨ihchain, ihfa, ihcov⟩ := layout_main pos (b2 :: t) (P ++ ("" :: blockLines b))
        lines alst hlines'' hplst' hac (fun x hx => hgb x (by simp [hx]))
        (by
          intro e he
          rw [hoff] at he
          exact hlkAll e (by
            rw [show layoutPosAux (P.length : Int) (b :: b2 :: t) =
              (b.name, (P.length : Int) + (b.comments.length : Int) + 2,
                (P.length : Int) + (b.comments.length : Int) + (b.body.length : Int) + 1) ::
              layoutPosAux ((P.length : Int) + 1 + ((blockLines b).length : Int)) (b2 :: t)
              from rfl]
            exact List.mem_cons_of_mem _ he))
        (by simp)
      rw [hoff] at ihchain ihfa ihcov
      have hblenb : (blockLines b).length = b.comments.length + b.body.length := by
        rw [blockLines, List.length_append]
      rw [show layoutPosAux (P.length : Int) (b :: b2 :: t) =
        (b.name, (P.length : Int) + (b.comments.length : Int) + 2,
          (P.length : Int) + (b.comments.length : Int) + (b.body.length : Int) + 1) ::
        layoutPosAux ((P.length : Int) + 1 + ((blockLines b).length : Int)) (b2 :: t)
        from rfl]
      rw [List.map_cons, List.map_cons]
      refine ⟨?_, List.Forall₂.cons ⟨hg, hex⟩ ihfa, ?_⟩
      · apply List.chain'_cons'.mpr
        refine ⟨?_, ihchain⟩
        intro y hy
        rw [show layoutPosAux ((P.length : Int) + 1 + ((blockLines b).length : Int)) (b2 :: t) =
          (b2.name, (P.length : Int) + 1 + ((blockLines b).length : Int) +
              (b2.comments.length : Int) + 2,
            (P.length : Int) + 1 + ((blockLines b).length : Int) +
              (b2.comments.length : Int) + (b2.body.length : Int) + 1) ::
          layoutPosAux ((P.length : Int) + 1 + ((blockLines b).length : Int) + 1 +
            ((blockLines b2).length : Int)) t from rfl] at hy
        rw [List.map_cons, List.head?_cons] at hy
        have hy' := Option.mem_some_iff.mp hy
        subst hy'
        simp only [convPos]
        omega
      · intro j
        constructor
        · rintro ⟨f, hf, hc⟩
          rcases List.mem_cons.mp hf with rfl | hf'
          · obtain ⟨h1, h2, h3⟩ := (hcv j).mp hc
            exact ⟨h1, h3⟩
          · obtain ⟨h1, h2⟩ := (ihcov j).mp ⟨f, hf', hc⟩
            exact ⟨by omega, h2⟩
        · rintro ⟨h1, h2⟩
          by_cases hj : j ≤ (P.length : Int) + 1 + ((blockLines b).length : Int)
          · exact ⟨_, List.mem_cons_self _ _, (hcv j).mpr ⟨h1, hj, h2⟩⟩
          · obtain ⟨f, hf, hc⟩ := (ihcov j).mpr ⟨by omega, h2⟩
            exact ⟨f, List.mem_cons_of_mem _ hf, hc⟩


/-- Claim C6 (amended): a file already in output shape — a header ending in
a non-comment, non-blank line, followed by blank-separated test-function
blocks with contiguous leading comments and strictly ascending names — is a
fixed point of the transformation, so feeding the output of a run back in
reproduces it; the original unconditional idempotence fails for files with
zero test functions (see the counterexample). -/
theorem claim_C6 (H : List String) (bs : List BlockShape)
    (hH : goodHeader H) (hgb : ∀ b ∈ bs, goodBlock b) (hne : bs ≠ [])
    (hsorted : List.Chain' (fun a b => strLt a.name b.name = true) bs) :
    reorderContent (joinLines (layoutLines H bs)) (layoutPos H bs) =
      some (joinLines (layoutLines H bs)) := by
  obtain ⟨hHne, ⟨hlst, hHlast, hHc⟩, hHnn⟩ := hH
  have hnnAll : ∀ l ∈ layoutLines H bs, '\n' ∉ l.data := by
    intro l hl
    rw [layoutLines] at hl
    rcases List.mem_append.mp hl with hl1 | hl2
    · exact hHnn l hl1
    · rcases List.mem_append.mp hl2 with hl3 | hl4
      · rcases mem_layoutLinesAux bs l hl3 with rfl | ⟨b, hb, hlb⟩
        · simp
        · exact ((hgb b hb).2.2.2.2) l hlb
      · rw [List.mem_singleton] at hl4
        subst hl4
        simp
  have hLne : layoutLines H bs ≠ [] := by
    rw [layoutLines]
    simp
  have hsplit : splitLines (joinLines (layoutLines H bs)) = layoutLines H bs :=
    splitLines_joinLines _ hLne hnnAll
  have htrans : ∀ x y z : BlockShape, strLt x.name y.name = true →
      strLt y.name z.name = true → strLt x.name z.name = true :=
    fun x y z hxy hyz => charListLt_trans _ _ _ hxy hyz
  have hpw : List.Pairwise (fun a b : BlockShape => strLt a.name b.name = true) bs := by
    haveI : IsTrans BlockShape (fun a b : BlockShape => strLt a.name b.name = true) :=
      ⟨htrans⟩
    exact List.chain'_iff_pairwise.mp hsorted
  have hpw' : List.Pairwise (fun a b : BlockShape => a.name ≠ b.name) bs := by
    refine hpw.imp ?_
    intro a b hab heq
    rw [heq] at hab
    rw [show strLt b.name b.name = charListLt b.name.data b.name.data from rfl,
      charListLt_irrefl] at hab
    exact Bool.false_ne_true hab
  have hnames : ((layoutPos H bs).map Prod.fst).Nodup := by
    rw [layoutPos, layoutPosAux_names]
    exact List.pairwise_map.mpr hpw'
  have hlkAll : ∀ e ∈ layoutPosAux (H.length : Int) bs,
      lookupPos (layoutPos H bs) e.1 = e.2 := by
    intro e he
    exact lookupPos_nodup _ hnames e (by rw [layoutPos]; exact he)
  obtain ⟨hchain, hfa, hcov⟩ := layout_main (layoutPos H bs) bs H (layoutLines H bs)
    hlst (by rw [layoutLines]) hHlast hHc hgb hlkAll hne
  have hcsp : createSortedFuncPositions (layoutPos H bs) =
      (layoutPosAux (H.length : Int) bs).map convPos := by
    rw [show createSortedFuncPositions (layoutPos H bs) =
      sortByStart ((layoutPos H bs).map convPos) from rfl]
    rw [layoutPos]
    exact sortByStart_eq_self _ hchain
  obtain ⟨p, hp⟩ := markProcessedLines_some (layoutLines H bs)
    ((layoutPosAux (H.length : Int) bs).map convPos)
  have hpj : ∀ j : Int, p j = true ↔
      ((H.length : Int) ≤ j ∧ j < ((layoutLines H bs).length : Int)) := by
    intro j
    have hp' : List.foldlM (markProcessedStep (layoutLines H bs)) (fun _ => false)
        ((layoutPosAux (H.length : Int) bs).map convPos) = some p := hp
    rw [markProcessedLines_mem (layoutLines H bs) _ _ _ hp' j]
    constructor
    · rintro (hfalse | hex)
      · exact absurd hfalse Bool.false_ne_true
      · exact (hcov j).mp hex
    · intro h
      exact Or.inr ((hcov j).mpr h)
  have hextAll : extractAllTestFunctions (layoutLines H bs)
      ((layoutPosAux (H.length : Int) bs).map convPos) (layoutPos H bs) =
      some (bs.map extractedBlock) := by
    have h := extractAll_forall2 (layoutLines H bs) (layoutPos H bs) hfa []
    rw [extractAllTestFunctions, h]
    simp
  have hsep : separateTestAndNonTestContent (layoutLines H bs) (layoutPos H bs) =
      some (bs.map extractedBlock, collectNonTestLines (layoutLines H bs) p) := by
    rw [separateTestAndNonTestContent, hcsp, hp, bind_some_eq, hextAll, bind_some_eq]
    rfl
  have hHE : H.isEmpty = false := by
    cases H with
    | nil => exact absurd rfl hHne
    | cons a t => rfl
  have hlenL : ((layoutLines H bs).length : Int) =
      (H.length : Int) + ((layoutLinesAux bs ++ [""]).length : Int) := by
    rw [layoutLines]
    simp [List.length_append]
  have haux : collectNonTestAux p (layoutLines H bs) 0 = H := by
    rw [show layoutLines H bs = H ++ (layoutLinesAux bs ++ [""]) from by rw [layoutLines]]
    apply collectNonTestAux_split p H (layoutLinesAux bs ++ [""]) 0
    · intro j h1 h2
      refine Bool.eq_false_iff.mpr (fun ht => ?_)
      have h := (hpj j).mp ht
      omega
    · intro j h1 h2
      exact (hpj j).mpr ⟨by omega, by omega⟩
  have hcnl : collectNonTestLines (layoutLines H bs) p = H ++ [""] := by
    rw [collectNonTestLines, haux]
    show (if H.isEmpty then H else H ++ [""]) = H ++ [""]
    rw [hHE]
    rfl
  have hchainName : List.Chain' (fun a b : TestFunction => strLt a.Name b.Name = true)
      (bs.map extractedBlock) := by
    rw [List.chain'_map]
    exact hsorted
  have hbuild : BuildOutputContent (bs.map extractedBlock) (H ++ [""]) =
      joinLines (layoutLines H bs) := by
    rw [BuildOutputContent, sortByName_eq_self _ hchainName, assembleOutput]
    have hposcond : (bs.map extractedBlock).length > 0 ∧ (H ++ [""]).length > 0 :=
      ⟨by rw [List.length_map]; exact List.length_pos.mpr hne, by simp⟩
    rw [if_pos hposcond]
    rw [dropTrailingBlankLines_spec H hlst hHlast (commentish_false_nonblank hHc)]
    rw [outputLines_layout H bs hgb hne]
    obtain ⟨alst, halst, hac, hann⟩ := layoutLinesAux_getLast bs hne hgb
    have hlastHL : (H ++ layoutLinesAux bs).getLast? = some alst := by
      rw [List.getLast?_append, halst]
      rfl
    have hnotrail : hasTrailingNewline (joinLines (H ++ layoutLinesAux bs)) = false :=
      hasTrailingNewline_joinLines _ alst hlastHL hann
        (trimSpace_nonblank_ne_nil (commentish_false_nonblank hac))
    rw [if_neg (by rw [hnotrail]; exact Bool.false_ne_true)]
    rw [← joinLines_append_blank (H ++ layoutLinesAux bs) (by simp [hHne])]
    rw [layoutLines, ← List.append_assoc]
  rw [reorderContent, hsplit, hsep, Option.map_some']
  show some (BuildOutputContent (bs.map extractedBlock)
    (collectNonTestLines (layoutLines H bs) p)) =
    some (joinLines (layoutLines H bs))
  rw [hcnl, hbuild]


/-- Claim C6, counterexample to the unconditional statement: with zero test
functions the blank sentinel of `collectNonTestLines` survives into the
output, so a file already carrying the trailing newline gains one more blank
line on the second run and the two-run output differs from the one-run
output. -/
theorem claim_C6_cex :
    reorderContent "package main" [] = some "package main\n" ∧
    reorderContent "package main\n" [] = some "package main\n\n" ∧
    ("package main\n\n" : String) ≠ "package main\n" := by
  refine ⟨by decide, by decide, by decide⟩

/-- Claim C6, witness: a three-line header and two well-formed,
name-sorted test-function blocks; the output-shaped file they lay out is
reproduced exactly by the transformation. -/
theorem claim_C6_witness :
    reorderContent
      (joinLines (layoutLines ["package main", "", "import \x22testing\x22"]
        [⟨"Test_a", ["// a"], ["func Test_a(t *testing.T) \x7b", "\x7d"]⟩,
         ⟨"Test_b", [], ["func Test_b(t *testing.T) \x7b", "\x7d"]⟩]))
      (layoutPos ["package main", "", "import \x22testing\x22"]
        [⟨"Test_a", ["// a"], ["func Test_a(t *testing.T) \x7b", "\x7d"]⟩,
         ⟨"Test_b", [], ["func Test_b(t *testing.T) \x7b", "\x7d"]⟩]) =
      some (joinLines (layoutLines ["package main", "", "import \x22testing\x22"]
        [⟨"Test_a", ["// a"], ["func Test_a(t *testing.T) \x7b", "\x7d"]⟩,
         ⟨"Test_b", [], ["func Test_b(t *testing.T) \x7b", "\x7d"]⟩])) := by
  apply claim_C6
  · exact ⟨by decide, ⟨"import \x22testing\x22", by decide, by decide⟩, by decide⟩
  · intro b hb
    rcases List.mem_cons.mp hb with rfl | hb2
    · exact ⟨by decide, by decide, ⟨"// a", by decide, by decide⟩,
        ⟨"\x7d", by decide, by decide⟩, by decide⟩
    · rcases List.mem_cons.mp hb2 with rfl | hb3
      · exact ⟨by decide, by decide,
          ⟨"func Test_b(t *testing.T) \x7b", by decide, by decide⟩,
          ⟨"\x7d", by decide, by decide⟩, by decide⟩
      · cases hb3
  · decide
  · exact List.chain'_cons.mpr ⟨by decide, List.chain'_singleton _⟩

end ReOrderFuncs
